import Mathlib

/-!
Verification of the dynamic-data-store library (src/dynamic-data-store.ts,
src/query.ts, src/value-matcher.ts, src/json-helper.ts,
src/dynamic-data-store-records.ts) against its natural-language
specification.

Modelling conventions (shallow embedding of the TypeScript source):
* JS strings are lists of characters (`JSStr`); JS string comparison
  (`<` on strings, used by `orderBy`) is `ltB`, lexicographic comparison
  by code unit (all characters appearing here are in the BMP, where code
  units and code points coincide).
* JS numbers are modelled as integers (`Int`) — the integral fragment
  exercised by the store; float formatting/parsing is outside the model.
  Matcher bounds additionally carry the `±Infinity` defaults (`JSNum`).
* JS records (plain data objects) are ordered association lists of
  fields (`RecordV`); values are the `Value` tree (null, number, boolean,
  string, array, object, Map, Set).  `undefined` is represented as the
  absence of a field (lookups return `Option Value`).
* Query values (`QVal`) mirror `Value` but additionally allow a
  `ValueMatcher` anywhere a value can appear, exactly as `Query<T>` does.
* JS strict equality `===` (used by `_performQuery`'s scan filter, by
  `recordMatches`' literal branch, and by `Array.includes`) compares
  primitives by value and heap objects by reference.  In every use in
  this code the two compared heap values have distinct provenance (one
  side comes from a freshly written query/expected literal, the other
  from the store), so `===` on two structured values is modelled as
  `false` (`strictEqV`/`strictEqQV`).
* `JSON.stringify(x, JsonHelper.replacer)` is `jsonStringify` (the
  replacer's Map/Set encoding — note the source encodes a `Set` through
  `entries()`, producing `[v, v]` pairs — is built in), and a plain
  `JSON.parse` without reviver is `jsonParse` (fuelled recursive-descent
  parser over the canonical, whitespace-free output grammar).
-/

/-- JS strings as lists of UTF-16 code units (BMP fragment). -/
abbrev JSStr := List Char

/-- Convenience conversion from Lean string literals. -/
def strC (s : String) : JSStr := s.data

/-- Matcher bound: a JS number that may be `±Infinity` (the default bounds
of `between`/`greaterThan`/`lessThan`). -/
inductive JSNum where
  | negInf
  | posInf
  | num (i : Int)
deriving DecidableEq

/-- JS `a <= b` on matcher bounds versus coerced actual numbers. -/
def jnLe : JSNum → JSNum → Bool
  | .negInf, _ => true
  | _, .posInf => true
  | .posInf, _ => false
  | .num a, .num b => a ≤ b
  | .num _, .negInf => false

/-- JS `a < b` on matcher bounds versus coerced actual numbers. -/
def jnLt : JSNum → JSNum → Bool
  | _, .negInf => false
  | .negInf, _ => true
  | .posInf, _ => false
  | .num a, .num b => a < b
  | .num _, .posInf => true

/-- Decimal digit to character. -/
def digitChar : Nat → Char
  | 0 => '0'
  | 1 => '1'
  | 2 => '2'
  | 3 => '3'
  | 4 => '4'
  | 5 => '5'
  | 6 => '6'
  | 7 => '7'
  | 8 => '8'
  | _ => '9'

/-- Hexadecimal digit to (lowercase) character, as emitted by
`JSON.stringify` for control-character escapes. -/
def hexDigitChar : Nat → Char
  | 0 => '0'
  | 1 => '1'
  | 2 => '2'
  | 3 => '3'
  | 4 => '4'
  | 5 => '5'
  | 6 => '6'
  | 7 => '7'
  | 8 => '8'
  | 9 => '9'
  | 10 => 'a'
  | 11 => 'b'
  | 12 => 'c'
  | 13 => 'd'
  | 14 => 'e'
  | _ => 'f'

/-- Decimal digits of a natural number, most significant first
(fuelled; `natChars` supplies sufficient fuel). -/
def natCharsGo : Nat → Nat → JSStr
  | 0, _ => []
  | f + 1, n => if n < 10 then [digitChar n] else natCharsGo f (n / 10) ++ [digitChar (n % 10)]

/-- Decimal representation of a natural number (JS `String(n)` for
non-negative integers). -/
def natChars (n : Nat) : JSStr := natCharsGo (n + 1) n

/-- Decimal representation of an integer (JS number-to-string on the
integral fragment). -/
def intChars (i : Int) : JSStr :=
  if i < 0 then '-' :: natChars i.natAbs else natChars i.toNat

/-- JS `String(b)` for booleans. -/
def boolChars (b : Bool) : JSStr := if b then strC "true" else strC "false"

/-- JSON string-body escaping performed by `JSON.stringify`: quote,
backslash, the named control escapes, and `\u00xx` for the remaining
control characters; everything else is emitted verbatim. -/
def escChar (c : Char) : JSStr :=
  if c = '"' then ['\\', '"']
  else if c = '\\' then ['\\', '\\']
  else if c = Char.ofNat 8 then ['\\', 'b']
  else if c = '\t' then ['\\', 't']
  else if c = '\n' then ['\\', 'n']
  else if c = Char.ofNat 12 then ['\\', 'f']
  else if c = '\r' then ['\\', 'r']
  else if c.toNat < 32 then
    ['\\', 'u', '0', '0', hexDigitChar (c.toNat / 16), hexDigitChar (c.toNat % 16)]
  else [c]

/-- Escaped body of a JSON string literal. -/
def encStrBody : JSStr → JSStr
  | [] => []
  | c :: cs => escChar c ++ encStrBody cs

/-- JSON string literal for a JS string. -/
def encStr (s : JSStr) : JSStr := '"' :: encStrBody s ++ ['"']

/-- JS runtime values (the data stored in and queried from a
`DynamicDataStore`): null, number, boolean, string, array, plain
object, `Map`, `Set`.  `undefined` is modelled as field absence. -/
inductive Value where
  | vNull
  | vNum (n : Int)
  | vBool (b : Bool)
  | vStr (s : JSStr)
  | vArr (elems : List Value)
  | vObj (fields : List (JSStr × Value))
  | vMap (entries : List (Value × Value))
  | vSet (elems : List Value)

/-- A JS record (plain data object): ordered fields. -/
abbrev RecordV := List (JSStr × Value)

mutual
/-- `JSON.stringify(v, JsonHelper.replacer)`: canonical, whitespace-free
JSON, with `Map` encoded as `{"dataType":"Map","value":[[k,v],...]}` and
`Set` — via the replacer's `Array.from(val.entries())` — encoded as
`{"dataType":"Set","value":[[v,v],...]}` (element pairs, as the source's
use of `entries()` on a `Set` produces). -/
def jsonStringify : Value → JSStr
  | .vNull => strC "null"
  | .vNum n => intChars n
  | .vBool b => boolChars b
  | .vStr s => encStr s
  | .vArr es => '[' :: encElems es ++ [']']
  | .vObj fs => '{' :: encFields fs ++ ['}']
  | .vMap en =>
      '{' :: (encStr (strC "dataType") ++ ':' :: encStr (strC "Map") ++
        ',' :: encStr (strC "value") ++ ':' :: '[' :: encEntries en ++ [']']) ++ ['}']
  | .vSet es =>
      '{' :: (encStr (strC "dataType") ++ ':' :: encStr (strC "Set") ++
        ',' :: encStr (strC "value") ++ ':' :: '[' :: encSetEntries es ++ [']']) ++ ['}']

/-- Comma-separated encodings of array elements. -/
def encElems : List Value → JSStr
  | [] => []
  | [v] => jsonStringify v
  | v :: rest => jsonStringify v ++ ',' :: encElems rest

/-- Comma-separated `"key":value` encodings of object fields. -/
def encFields : List (JSStr × Value) → JSStr
  | [] => []
  | [(k, v)] => encStr k ++ ':' :: jsonStringify v
  | (k, v) :: rest => encStr k ++ ':' :: jsonStringify v ++ ',' :: encFields rest

/-- Encodings of `Map.entries()` as `[key,value]` pair arrays. -/
def encEntries : List (Value × Value) → JSStr
  | [] => []
  | [(k, v)] => '[' :: jsonStringify k ++ ',' :: jsonStringify v ++ [']']
  | (k, v) :: rest =>
      ('[' :: jsonStringify k ++ ',' :: jsonStringify v ++ [']']) ++ ',' :: encEntries rest

/-- Encodings of `Set.entries()` as `[v,v]` pair arrays. -/
def encSetEntries : List Value → JSStr
  | [] => []
  | [v] => '[' :: jsonStringify v ++ ',' :: jsonStringify v ++ [']']
  | v :: rest =>
      ('[' :: jsonStringify v ++ ',' :: jsonStringify v ++ [']']) ++ ',' :: encSetEntries rest
end

/-- True decimal-digit character test. -/
def isDigitChar (c : Char) : Bool := '0' ≤ c && c ≤ '9'

/-- Numeric value of a decimal digit character (0 for non-digits). -/
def charDigit (c : Char) : Nat :=
  if isDigitChar c then c.toNat - 48 else 0

/-- Value of a digit string, most significant first. -/
def digitsVal (ds : JSStr) : Nat := ds.foldl (fun acc c => acc * 10 + charDigit c) 0

/-- JS `Number(s)` on the integer-literal fragment: the empty string is 0,
an optionally negated digit string is its value, anything else is NaN
(`none`).  (Whitespace trimming and non-integer numeric formats are
outside the modelled fragment.) -/
def strToNum : JSStr → Option Int
  | [] => some 0
  | c :: rest =>
      if c = '-' then
        if rest ≠ [] ∧ rest.all isDigitChar then some (-(digitsVal rest : Int)) else none
      else
        if (c :: rest).all isDigitChar then some ((digitsVal (c :: rest) : Int)) else none

/-- JS `typeof` tag of a value (`undefined` excluded: absent fields are
handled at lookup sites). -/
def typeofTag : Value → String
  | .vNull => "object"
  | .vNum _ => "number"
  | .vBool _ => "boolean"
  | .vStr _ => "string"
  | .vArr _ => "object"
  | .vObj _ => "object"
  | .vMap _ => "object"
  | .vSet _ => "object"

/-- `typeof v === 'object'` (true for null, arrays, objects, Maps, Sets). -/
def typeofObject (v : Value) : Bool := typeofTag v == "object"

/-- JS strict equality `===` between two values of distinct provenance:
primitives compare by value; structured values (objects, arrays, Maps,
Sets) compare by reference and the two sides never alias in the uses in
this code (one side is a freshly constructed query/expected literal),
so they compare unequal. -/
def strictEqV : Value → Value → Bool
  | .vNull, .vNull => true
  | .vNum a, .vNum b => a == b
  | .vBool a, .vBool b => a == b
  | .vStr a, .vStr b => a == b
  | _, _ => false

/-- `===` where the right-hand side may be `undefined` (an absent field). -/
def strictEqVOpt (v : Value) (o : Option Value) : Bool :=
  match o with
  | none => false
  | some w => strictEqV v w

mutual
/-- JS `String(v)`: identity on strings, decimal for numbers,
`true`/`false`, `null`, comma-joined elements for arrays,
`[object Object]` (resp. `Map`/`Set`) for other structured values. -/
def jsToStr : Value → JSStr
  | .vStr s => s
  | .vNum n => intChars n
  | .vBool b => boolChars b
  | .vNull => strC "null"
  | .vArr es => jsToStrArr es
  | .vObj _ => strC "[object Object]"
  | .vMap _ => strC "[object Map]"
  | .vSet _ => strC "[object Set]"

/-- JS `Array.prototype.toString`: elements stringified and comma-joined
(nested arrays flatten; null/undefined become empty — modelled for the
scalar elements this code exercises via `jsToStr`). -/
def jsToStrArr : List Value → JSStr
  | [] => []
  | [v] => jsToStr v
  | v :: rest => jsToStr v ++ ',' :: jsToStrArr rest
end

/-- `s.startsWith(pat)` on character lists. -/
def leadsWith : JSStr → JSStr → Bool
  | [], _ => true
  | _ :: _, [] => false
  | p :: ps, c :: cs => p == c && leadsWith ps cs

/-- `s.endsWith(pat)` on character lists. -/
def endsWithStr (pat s : JSStr) : Bool := leadsWith pat.reverse s.reverse

/-- `s.includes(pat)` on character lists (the empty pattern is always
included, as in JS). -/
def occursIn (pat : JSStr) : JSStr → Bool
  | [] => pat.isEmpty
  | c :: rest => leadsWith pat (c :: rest) || occursIn pat rest

/-- The matcher hierarchy of value-matcher.ts: one constructor per class.
`Matching` carries the `RegExp.test` function itself (regular-expression
syntax is not modelled; nothing here depends on it). -/
inductive ValueMatcher where
  | Between (min max : JSNum)
  | GreaterThan (min : JSNum)
  | LessThan (max : JSNum)
  | Containing (expected : Value)
  | Matching (test : JSStr → Bool)
  | StartingWith (start : Value)
  | EndingWith (stop : Value)
  | HavingValue
  | Not (notExpected : ValueMatcher)

/-- Factory `between(min?, max?)` with the `±Infinity` defaults. -/
def between (mn mx : Option JSNum) : ValueMatcher :=
  .Between (mn.getD .negInf) (mx.getD .posInf)

/-- Factory `greaterThan(min?)`. -/
def greaterThan (mn : Option JSNum) : ValueMatcher := .GreaterThan (mn.getD .negInf)

/-- Factory `lessThan(max?)`. -/
def lessThan (mx : Option JSNum) : ValueMatcher := .LessThan (mx.getD .posInf)

/-- Factory `containing(expected?)` (default empty string). -/
def containing (e : Option Value) : ValueMatcher := .Containing (e.getD (.vStr []))

/-- Factory `matching(regx?)` (default match-all). -/
def matching (t : Option (JSStr → Bool)) : ValueMatcher :=
  .Matching (t.getD (fun _ => true))

/-- Factory `startingWith(start?)` (default empty string). -/
def startingWith (s : Option Value) : ValueMatcher := .StartingWith (s.getD (.vStr []))

/-- Factory `endingWith(end?)` (default empty string). -/
def endingWith (s : Option Value) : ValueMatcher := .EndingWith (s.getD (.vStr []))

/-- Factory `havingValue()`. -/
def havingValue : ValueMatcher := .HavingValue

/-- Factory `not(notExpected)`. -/
def ValueMatcher.not (ne : ValueMatcher) : ValueMatcher := .Not ne

/-- `actual == null` (loose): null or undefined. -/
def isNullish : Option Value → Bool
  | none => true
  | some .vNull => true
  | some _ => false

/-- `Between.isMatch` body after the null guard: the number-coercion
ladder, then string length, then array length, then Map/Set size. -/
def betweenCheck (mn mx : JSNum) : Value → Bool
  | .vNum n => jnLe mn (.num n) && jnLe (.num n) mx
  | .vBool b =>
      let n : Int := if b then 1 else 0
      jnLe mn (.num n) && jnLe (.num n) mx
  | .vStr s =>
      match strToNum s with
      | some n => jnLe mn (.num n) && jnLe (.num n) mx
      | none =>
          let len : Int := s.length
          jnLe mn (.num len) && jnLe (.num len) mx
  | .vArr es =>
      let len : Int := es.length
      jnLe mn (.num len) && jnLe (.num len) mx
  | .vMap en =>
      let len : Int := en.length
      jnLe mn (.num len) && jnLe (.num len) mx
  | .vSet es =>
      let len : Int := es.length
      jnLe mn (.num len) && jnLe (.num len) mx
  | .vNull => false
  | .vObj _ => false

/-- `GreaterThan.isMatch` body after the null guard. -/
def greaterCheck (mn : JSNum) : Value → Bool
  | .vNum n => jnLt mn (.num n)
  | .vBool b => jnLt mn (.num (if b then 1 else 0))
  | .vStr s =>
      match strToNum s with
      | some n => jnLt mn (.num n)
      | none => jnLt mn (.num (s.length : Int))
  | .vArr es => jnLt mn (.num (es.length : Int))
  | .vMap en => jnLt mn (.num (en.length : Int))
  | .vSet es => jnLt mn (.num (es.length : Int))
  | .vNull => false
  | .vObj _ => false

/-- `LessThan.isMatch` body after the null guard. -/
def lessCheck (mx : JSNum) : Value → Bool
  | .vNum n => jnLt (.num n) mx
  | .vBool b => jnLt (.num (if b then 1 else 0)) mx
  | .vStr s =>
      match strToNum s with
      | some n => jnLt (.num n) mx
      | none => jnLt (.num (s.length : Int)) mx
  | .vArr es => jnLt (.num (es.length : Int)) mx
  | .vMap en => jnLt (.num (en.length : Int)) mx
  | .vSet es => jnLt (.num (es.length : Int)) mx
  | .vNull => false
  | .vObj _ => false

mutual
/-- `Containing._objectContains`: scans the own enumerable fields (object
fields, array elements); a field equal to `expected` (same `typeof` and
`===`) matches, and object-typed fields are searched recursively.  Called
with null, Maps or Sets it finds nothing (no own enumerable keys). -/
def objectContains (e : Value) : Value → Bool
  | .vObj fs => ocFields e fs
  | .vArr es => ocElems e es
  | .vNull => false
  | .vNum _ => false
  | .vBool _ => false
  | .vStr _ => false
  | .vMap _ => false
  | .vSet _ => false

/-- Field scan for `objectContains`. -/
def ocFields (e : Value) : List (JSStr × Value) → Bool
  | [] => false
  | (_, v) :: rest =>
      (typeofTag v == typeofTag e && strictEqV v e) ||
      (typeofObject v && objectContains e v) ||
      ocFields e rest

/-- Element scan for `objectContains`. -/
def ocElems (e : Value) : List Value → Bool
  | [] => false
  | v :: rest =>
      (typeofTag v == typeofTag e && strictEqV v e) ||
      (typeofObject v && objectContains e v) ||
      ocElems e rest
end

/-- `Containing.isMatch` body after the null guard: the source's ladder
— numeric difference, substring(s) in a string actual, membership in an
array actual, membership among Map/Set values, recursive field search in
any other object. -/
def containingCheck (e : Value) : Value → Bool
  | .vNum n =>
      match e with
      | .vNum m => decide (n - m ≥ 0)
      | _ => false
  | .vStr s =>
      match e with
      | .vStr t => occursIn t s
      | .vNum m => occursIn (intChars m) s
      | .vBool b => occursIn (boolChars b) s
      | .vArr vs => vs.all (fun v => occursIn (jsToStr v) s)
      | _ => false
  | .vArr es =>
      match e with
      | .vArr vs => vs.all (fun v => es.any (fun a => strictEqV a v))
      | _ => es.any (fun a => strictEqV a e)
  | .vMap en =>
      match e with
      | .vArr vs => vs.all (fun v => en.any (fun p => strictEqV p.2 v))
      | _ => en.any (fun p => strictEqV p.2 e)
  | .vSet es =>
      match e with
      | .vArr vs => vs.all (fun v => es.any (fun a => strictEqV a v))
      | _ => es.any (fun a => strictEqV a e)
  | .vObj fs => objectContains e (.vObj fs)
  | .vNull => false
  | .vBool _ => false

mutual
/-- `Matching.isMatch` body after the null guard: scalars are stringified
and tested against the pattern; arrays and Map/Set values must ALL match. -/
def matchingCheck (t : JSStr → Bool) : Value → Bool
  | .vStr s => t s
  | .vNum n => t (intChars n)
  | .vBool b => t (boolChars b)
  | .vArr es => mcAll t es
  | .vMap en => mcPairs t en
  | .vSet es => mcAll t es
  | .vNull => false
  | .vObj _ => false

/-- `every`-style scan for `matchingCheck` over elements. -/
def mcAll (t : JSStr → Bool) : List Value → Bool
  | [] => true
  | v :: rest => matchingCheck t v && mcAll t rest

/-- `every`-style scan for `matchingCheck` over Map values. -/
def mcPairs (t : JSStr → Bool) : List (Value × Value) → Bool
  | [] => true
  | (_, v) :: rest => matchingCheck t v && mcPairs t rest
end

/-- `StartingWith.isMatch` body after the null guard: scalars by
stringified prefix; collections by strict equality of the first value. -/
def startsCheck (st : Value) : Value → Bool
  | .vNum n => leadsWith (jsToStr st) (intChars n)
  | .vStr s => leadsWith (jsToStr st) s
  | .vBool b => leadsWith (jsToStr st) (boolChars b)
  | .vArr es =>
      match es with
      | [] => false
      | a :: _ => strictEqV a st
  | .vMap en =>
      match en with
      | [] => false
      | (_, v) :: _ => strictEqV v st
  | .vSet es =>
      match es with
      | [] => false
      | a :: _ => strictEqV a st
  | .vNull => false
  | .vObj _ => false

/-- `EndingWith.isMatch` body after the null guard: scalars by
stringified suffix; collections by strict equality of the last value. -/
def endsCheck (st : Value) : Value → Bool
  | .vNum n => endsWithStr (jsToStr st) (intChars n)
  | .vStr s => endsWithStr (jsToStr st) s
  | .vBool b => endsWithStr (jsToStr st) (boolChars b)
  | .vArr es =>
      match es.getLast? with
      | none => false
      | some a => strictEqV a st
  | .vMap en =>
      match en.getLast? with
      | none => false
      | some p => strictEqV p.2 st
  | .vSet es =>
      match es.getLast? with
      | none => false
      | some a => strictEqV a st
  | .vNull => false
  | .vObj _ => false

/-- `isMatch(actual)`: each matcher guards on `actual != null` first
(returning false for null/undefined), except `HavingValue` which returns
exactly that guard, and `Not` which negates its inner matcher. -/
def ValueMatcher.isMatch : ValueMatcher → Option Value → Bool
  | .Between mn mx, o => match o with
      | none => false
      | some v => betweenCheck mn mx v
  | .GreaterThan mn, o => match o with
      | none => false
      | some v => greaterCheck mn v
  | .LessThan mx, o => match o with
      | none => false
      | some v => lessCheck mx v
  | .Containing e, o => match o with
      | none => false
      | some v => match v with
          | .vNull => false
          | v' => containingCheck e v'
  | .Matching t, o => match o with
      | none => false
      | some v => matchingCheck t v
  | .StartingWith st, o => match o with
      | none => false
      | some v => startsCheck st v
  | .EndingWith st, o => match o with
      | none => false
      | some v => endsCheck st v
  | .HavingValue, o => !(isNullish o)
  | .Not inner, o => !(inner.isMatch o)

/-- Query values (`QueryValue` in the source): a literal value, a nested
query-shaped structured value, or a `ValueMatcher` — recursively, since
nested query objects may themselves contain matchers. -/
inductive QVal where
  | qMatcher (m : ValueMatcher)
  | qNull
  | qNum (n : Int)
  | qBool (b : Bool)
  | qStr (s : JSStr)
  | qArr (es : List QVal)
  | qObj (fs : List (JSStr × QVal))
  | qMap (entries : List (QVal × QVal))
  | qSet (es : List QVal)

/-- A query: a partial record whose values are `QVal`s. -/
abbrev QueryV := List (JSStr × QVal)

mutual
/-- Embedding of plain values into query values (a record used as a
query, e.g. `update`'s `query ?? updates`). -/
def valToQVal : Value → QVal
  | .vNull => .qNull
  | .vNum n => .qNum n
  | .vBool b => .qBool b
  | .vStr s => .qStr s
  | .vArr es => .qArr (valToQValL es)
  | .vObj fs => .qObj (valToQValF fs)
  | .vMap en => .qMap (valToQValP en)
  | .vSet es => .qSet (valToQValL es)

/-- Elementwise `valToQVal`. -/
def valToQValL : List Value → List QVal
  | [] => []
  | v :: rest => valToQVal v :: valToQValL rest

/-- Fieldwise `valToQVal`. -/
def valToQValF : List (JSStr × Value) → List (JSStr × QVal)
  | [] => []
  | (k, v) :: rest => (k, valToQVal v) :: valToQValF rest

/-- Pairwise `valToQVal`. -/
def valToQValP : List (Value × Value) → List (QVal × QVal)
  | [] => []
  | (k, v) :: rest => (valToQVal k, valToQVal v) :: valToQValP rest
end

/-- A record used as a query (each field value embedded literally). -/
def queryOfRecord (r : RecordV) : QueryV := r.map (fun p => (p.1, valToQVal p.2))

/-- `typeof qv === 'object' && qv !== null` for a non-matcher query
value: true exactly for arrays, objects, Maps and Sets. -/
def qvIsObject : QVal → Bool
  | .qArr _ => true
  | .qObj _ => true
  | .qMap _ => true
  | .qSet _ => true
  | _ => false

/-- `===` between a non-object query literal and a record field (which
may be absent, i.e. `undefined`).  Structured values compare by
reference and never alias across the query/record boundary, hence
`false` (see the module comment). -/
def strictEqQV : QVal → Option Value → Bool
  | .qNull, some .vNull => true
  | .qNum n, some (.vNum m) => n == m
  | .qBool a, some (.vBool b) => a == b
  | .qStr s, some (.vStr t) => s == t
  | _, _ => false

/-- First-match field lookup in a record (JS property access;
`none` is `undefined`). -/
def lookupF (fs : List (JSStr × Value)) (k : JSStr) : Option Value :=
  (fs.find? (fun p => p.1 == k)).map (fun p => p.2)

/-- Indexed access used when a nested query descends into an array
record field: JS `a["0"]`, `a["1"]`, … -/
def arrAccessGo (i : Nat) : List Value → JSStr → Option Value
  | [], _ => none
  | v :: rest, k => if natChars i == k then some v else arrAccessGo (i + 1) rest k

/-- JS property access `rv[k]` on an arbitrary value: object fields,
array indices; primitives, Maps and Sets expose no own enumerable
properties relevant here.  (String index/length access is outside the
modelled fragment.) -/
def fieldAccess : Value → JSStr → Option Value
  | .vObj fs, k => lookupF fs k
  | .vArr es, k => arrAccessGo 0 es k
  | _, _ => none

mutual
/-- `recordMatches(query, record)` from query.ts, entered at a nested
query value: its own enumerable fields (object fields; array elements
under their index keys; none for Maps/Sets) must all match. -/
def matchNested : QVal → Value → Bool
  | .qObj fs, rv => matchFields fs rv
  | .qArr es, rv => matchArrFields 0 es rv
  | _, _ => true

/-- Per-field loop of `recordMatches`: a matcher field delegates to
`isMatch`; a non-null object-typed query value requires a non-nullish
record field and recursive matching; otherwise strict literal equality. -/
def matchFields : List (JSStr × QVal) → Value → Bool
  | [], _ => true
  | (k, qv) :: rest, rv =>
      (match qv with
       | .qMatcher m => m.isMatch (fieldAccess rv k)
       | _ =>
         if qvIsObject qv then
           match fieldAccess rv k with
           | none => false
           | some .vNull => false
           | some sub => matchNested qv sub
         else strictEqQV qv (fieldAccess rv k)) &&
      matchFields rest rv

/-- Array variant of `matchFields` (keys are "0", "1", …). -/
def matchArrFields : Nat → List QVal → Value → Bool
  | _, [], _ => true
  | i, qv :: rest, rv =>
      (match qv with
       | .qMatcher m => m.isMatch (fieldAccess rv (natChars i))
       | _ =>
         if qvIsObject qv then
           match fieldAccess rv (natChars i) with
           | none => false
           | some .vNull => false
           | some sub => matchNested qv sub
         else strictEqQV qv (fieldAccess rv (natChars i))) &&
      matchArrFields (i + 1) rest rv
end

/-- `recordMatches(query, record)` for a top-level record. -/
def recordMatches (q : QueryV) (r : RecordV) : Bool := matchFields q (.vObj r)

namespace Query

/-- `Query.filterBy(query, ...records)`: the standalone filter — records
matching the query, in order, with a missing (`null`/`undefined`) query
meaning "all records". -/
def filterBy (q : Option QueryV) (records : List RecordV) : List RecordV :=
  match q with
  | some qq => records.filter (fun r => recordMatches qq r)
  | none => records

end Query

/-- `JSON.stringify` image of a matcher bound (JS serialises `±Infinity`
as `null`). -/
def jnJson : JSNum → JSStr
  | .num i => intChars i
  | _ => strC "null"

/-- `JSON.stringify` of a matcher instance (its own enumerable
properties, in declaration order; a `RegExp` serialises as `{}`).  Only
reachable through the whole-record fallback of `getIndex` on a query
that still contains matchers; no theorem depends on it. -/
def matcherJson : ValueMatcher → JSStr
  | .Between mn mx =>
      '{' :: (encStr (strC "min") ++ ':' :: jnJson mn ++
        ',' :: encStr (strC "max") ++ ':' :: jnJson mx) ++ ['}']
  | .GreaterThan mn => '{' :: (encStr (strC "min") ++ ':' :: jnJson mn) ++ ['}']
  | .LessThan mx => '{' :: (encStr (strC "max") ++ ':' :: jnJson mx) ++ ['}']
  | .Containing e => '{' :: (encStr (strC "expected") ++ ':' :: jsonStringify e) ++ ['}']
  | .Matching _ => '{' :: (encStr (strC "regx") ++ ':' :: '{' :: '}' :: []) ++ ['}']
  | .StartingWith s => '{' :: (encStr (strC "start") ++ ':' :: jsonStringify s) ++ ['}']
  | .EndingWith s => '{' :: (encStr (strC "end") ++ ':' :: jsonStringify s) ++ ['}']
  | .HavingValue => ['{', '}']
  | .Not inner => '{' :: (encStr (strC "notExpected") ++ ':' :: matcherJson inner) ++ ['}']

mutual
/-- `JSON.stringify(qv, JsonHelper.replacer)` for a query value (a value
tree possibly containing matcher instances). -/
def jsonStringifyQV : QVal → JSStr
  | .qMatcher m => matcherJson m
  | .qNull => strC "null"
  | .qNum n => intChars n
  | .qBool b => boolChars b
  | .qStr s => encStr s
  | .qArr es => '[' :: encQElems es ++ [']']
  | .qObj fs => '{' :: encQFields fs ++ ['}']
  | .qMap en =>
      '{' :: (encStr (strC "dataType") ++ ':' :: encStr (strC "Map") ++
        ',' :: encStr (strC "value") ++ ':' :: '[' :: encQEntries en ++ [']']) ++ ['}']
  | .qSet es =>
      '{' :: (encStr (strC "dataType") ++ ':' :: encStr (strC "Set") ++
        ',' :: encStr (strC "value") ++ ':' :: '[' :: encQSetEntries es ++ [']']) ++ ['}']

/-- `encElems` for query values. -/
def encQElems : List QVal → JSStr
  | [] => []
  | [v] => jsonStringifyQV v
  | v :: rest => jsonStringifyQV v ++ ',' :: encQElems rest

/-- `encFields` for query values. -/
def encQFields : List (JSStr × QVal) → JSStr
  | [] => []
  | [(k, v)] => encStr k ++ ':' :: jsonStringifyQV v
  | (k, v) :: rest => encStr k ++ ':' :: jsonStringifyQV v ++ ',' :: encQFields rest

/-- `encEntries` for query values. -/
def encQEntries : List (QVal × QVal) → JSStr
  | [] => []
  | [(k, v)] => '[' :: jsonStringifyQV k ++ ',' :: jsonStringifyQV v ++ [']']
  | (k, v) :: rest =>
      ('[' :: jsonStringifyQV k ++ ',' :: jsonStringifyQV v ++ [']']) ++ ',' :: encQEntries rest

/-- `encSetEntries` for query values. -/
def encQSetEntries : List QVal → JSStr
  | [] => []
  | [v] => '[' :: jsonStringifyQV v ++ ',' :: jsonStringifyQV v ++ [']']
  | v :: rest =>
      ('[' :: jsonStringifyQV v ++ ',' :: jsonStringifyQV v ++ [']']) ++ ',' :: encQSetEntries rest
end

/-- `Array.prototype.join(delim)` on already-stringified segments. -/
def joinD (d : JSStr) : List JSStr → JSStr
  | [] => []
  | [x] => x
  | x :: xs => x ++ d ++ joinD d xs

/-- Store configuration: the index property keys and the key delimiter
(immutable after construction). -/
structure StoreCfg where
  indicies : List JSStr
  delim : JSStr

/-- The store: configuration plus the internal `Map<string, T>`,
modelled as an insertion-ordered association list with unique keys
(exactly a JS `Map`'s observable behaviour). -/
structure Store where
  cfg : StoreCfg
  table : List (JSStr × RecordV)

/-- `Map.prototype.get`. -/
def mapGet (t : List (JSStr × α)) (k : JSStr) : Option α :=
  (t.find? (fun p => p.1 == k)).map (fun p => p.2)

/-- `Map.prototype.set`: replaces in place if the key exists (keeping
its position), else appends. -/
def mapSet (t : List (JSStr × α)) (k : JSStr) (v : α) : List (JSStr × α) :=
  match t with
  | [] => [(k, v)]
  | (k', v') :: rest => if k' == k then (k', v) :: rest else (k', v') :: mapSet rest k v

/-- `Map.prototype.delete` (removes the entry with the given key). -/
def mapDelete (t : List (JSStr × α)) (k : JSStr) : List (JSStr × α) :=
  match t with
  | [] => []
  | (k', v') :: rest => if k' == k then rest else (k', v') :: mapDelete rest k

/-- `Map.prototype.values()` in insertion order. -/
def mapValues (t : List (JSStr × α)) : List α := t.map (fun p => p.2)

/-- Query field lookup (JS property access on the query object). -/
def getFieldQ (q : QueryV) (k : JSStr) : Option QVal :=
  (q.find? (fun p => p.1 == k)).map (fun p => p.2)

/-- JS object field assignment `o[k] = v` (replace in place or append) —
the same operation as `Map.set` on an association list. -/
def setField (r : RecordV) (k : JSStr) (v : Value) : RecordV := mapSet r k v

/-- Object spread `{...r, ...u}`: `r`'s fields in order, each field of
`u` overwriting in place or appending. -/
def mergeRec (r u : RecordV) : RecordV := u.foldl (fun acc p => setField acc p.1 p.2) r

namespace DynamicDataStore

/-- `hasAllIndexProperties(record)`: false when no index keys are
configured; otherwise every index key must be present, non-nullish and
not a `ValueMatcher`. -/
def hasAllIndexProperties (cfg : StoreCfg) (q : QueryV) : Bool :=
  if cfg.indicies.isEmpty then false
  else cfg.indicies.all (fun k =>
    match getFieldQ q k with
    | none => false
    | some .qNull => false
    | some (.qMatcher _) => false
    | some _ => true)

/-- `getIndex(record)`: when all index properties are present, the
stringified index-field values joined by the delimiter; otherwise the
whole record's canonical encoding.  (The `undefined` arm of the inner
match is unreachable under the guard.) -/
def getIndex (cfg : StoreCfg) (q : QueryV) : JSStr :=
  if hasAllIndexProperties cfg q then
    joinD cfg.delim (cfg.indicies.map (fun k =>
      match getFieldQ q k with
      | some qv => jsonStringifyQV qv
      | none => strC "undefined"))
  else jsonStringifyQV (.qObj q)

/-- `getIndex` applied to a stored record. -/
def getIndexR (cfg : StoreCfg) (r : RecordV) : JSStr := getIndex cfg (queryOfRecord r)

/-- `_performQuery(query?)`: no query returns all records; a query with
all index properties resolves by direct key lookup; otherwise a full
scan where matcher query fields use `isMatch` and all other fields use
strict equality. -/
def performQuery (s : Store) (q : Option QueryV) : List RecordV :=
  match q with
  | none => mapValues s.table
  | some qq =>
      if hasAllIndexProperties s.cfg qq then
        match mapGet s.table (getIndex s.cfg qq) with
        | some v => [v]
        | none => []
      else
        (mapValues s.table).filter (fun r =>
          qq.all (fun p =>
            match p.2 with
            | .qMatcher m => m.isMatch (lookupF r p.1)
            | qv => strictEqQV qv (lookupF r p.1)))

/-- The scan predicate of `_performQuery`'s general path, exposed for
the statements below. -/
def scanPred (q : QueryV) (r : RecordV) : Bool :=
  q.all (fun p =>
    match p.2 with
    | .qMatcher m => m.isMatch (lookupF r p.1)
    | qv => strictEqQV qv (lookupF r p.1))

/-- `add(record)`: insert under the derived key if the key is truthy
and unoccupied; returns whether the record was added. -/
def add (s : Store) (r : RecordV) : Bool × Store :=
  let key := getIndexR s.cfg r
  if !key.isEmpty && (mapGet s.table key).isNone then
    (true, ⟨s.cfg, mapSet s.table key r⟩)
  else
    (false, s)

/-- `update(updates, query?)`: select targets through `_performQuery`
(on `query ?? updates`), then for each target store the spread-merge of
the target and the updates under the key derived from the TARGET (the
pre-update record), counting each. -/
def update (s : Store) (u : RecordV) (q : Option QueryV) : Nat × Store :=
  let found := performQuery s (some (q.getD (queryOfRecord u)))
  found.foldl
    (fun acc r =>
      let key := getIndexR s.cfg r
      if !key.isEmpty then (acc.1 + 1, ⟨s.cfg, mapSet acc.2.table key (mergeRec r u)⟩)
      else acc)
    (0, s)

/-- `size(query?)`: the number of records `_performQuery` returns. -/
def size (s : Store) (q : Option QueryV) : Nat := (performQuery s q).length

/-- `delete(query)`: the records `_performQuery` returns, each removed
from the table by its (pre-deletion) derived key. -/
def delete (s : Store) (q : QueryV) : List RecordV × Store :=
  let found := performQuery s (some q)
  (found,
    found.foldl
      (fun acc r =>
        let key := getIndexR s.cfg r
        if !key.isEmpty then ⟨s.cfg, mapDelete acc.table key⟩ else acc)
      s)

/-- `clear()`: returns all records and empties the table. -/
def clear (s : Store) : List RecordV × Store := (mapValues s.table, ⟨s.cfg, []⟩)

end DynamicDataStore

/-- `DynamicDataStoreOptions`: all fields optional, `none` meaning the
option was not supplied. -/
structure StoreOptions where
  indicies : Option (List JSStr) := none
  records : Option (List RecordV) := none
  delimiter : Option JSStr := none

/-- The constructor: default delimiter `'-'`, a copy of the supplied
index keys, then each initial record added in sequence through `add`. -/
def mkStore (opts : StoreOptions) : Store :=
  let cfg : StoreCfg := ⟨opts.indicies.getD [], opts.delimiter.getD ['-']⟩
  (opts.records.getD []).foldl (fun s r => (DynamicDataStore.add s r).2) ⟨cfg, []⟩

/-- Hexadecimal digit value for `\uXXXX` escapes (JSON.parse accepts
both cases). -/
def hexVal (c : Char) : Option Nat :=
  if isDigitChar c then some (c.toNat - 48)
  else if 'a' ≤ c && c ≤ 'f' then some (c.toNat - 97 + 10)
  else if 'A' ≤ c && c ≤ 'F' then some (c.toNat - 65 + 10)
  else none

/-- Body of a JSON string literal after the opening quote: unescapes up
to the closing quote, returning the decoded string and the remainder. -/
def parseStrBody : JSStr → Option (JSStr × JSStr)
  | [] => none
  | c :: rest =>
      if c = '"' then some ([], rest)
      else if c = '\\' then
        match rest with
        | '"' :: r => (parseStrBody r).map (fun pr => ('"' :: pr.1, pr.2))
        | '\\' :: r => (parseStrBody r).map (fun pr => ('\\' :: pr.1, pr.2))
        | '/' :: r => (parseStrBody r).map (fun pr => ('/' :: pr.1, pr.2))
        | 'n' :: r => (parseStrBody r).map (fun pr => ('\n' :: pr.1, pr.2))
        | 'r' :: r => (parseStrBody r).map (fun pr => ('\r' :: pr.1, pr.2))
        | 't' :: r => (parseStrBody r).map (fun pr => ('\t' :: pr.1, pr.2))
        | 'b' :: r => (parseStrBody r).map (fun pr => (Char.ofNat 8 :: pr.1, pr.2))
        | 'f' :: r => (parseStrBody r).map (fun pr => (Char.ofNat 12 :: pr.1, pr.2))
        | 'u' :: h1 :: h2 :: h3 :: h4 :: r =>
            match hexVal h1, hexVal h2, hexVal h3, hexVal h4 with
            | some a, some b, some c', some d =>
                (parseStrBody r).map
                  (fun pr => (Char.ofNat (((a * 16 + b) * 16 + c') * 16 + d) :: pr.1, pr.2))
            | _, _, _, _ => none
        | _ => none
      else (parseStrBody rest).map (fun pr => (c :: pr.1, pr.2))

/-- Longest digit run at the head of the input. -/
def digitSpan : JSStr → JSStr × JSStr
  | [] => ([], [])
  | c :: rest =>
      if isDigitChar c then
        let pr := digitSpan rest
        (c :: pr.1, pr.2)
      else ([], c :: rest)

/-- Parse a non-empty digit run as a natural number. -/
def parseDigits (s : JSStr) : Option (Nat × JSStr) :=
  match digitSpan s with
  | ([], _) => none
  | (ds, r) => some (digitsVal ds, r)

/-- `rest` starts with the given character. -/
def headIs (c : Char) : JSStr → Bool
  | [] => false
  | d :: _ => d == c

mutual
/-- Recursive-descent parser for the canonical (whitespace-free) JSON
emitted by `jsonStringify`, i.e. plain `JSON.parse` WITHOUT the
`JsonHelper.reviver` — it only ever produces null/number/boolean/
string/array/object values, never a `Map` or `Set`.  Fuelled: each call
consumes one unit, and `jsonParse` supplies fuel ample for its input.
(Whitespace and non-integer number formats are outside the modelled
fragment.) -/
def parseV : Nat → JSStr → Option (Value × JSStr)
  | 0, _ => none
  | _ + 1, [] => none
  | f + 1, c :: rest =>
          if c = 'n' then
            match rest with
            | 'u' :: 'l' :: 'l' :: r => some (.vNull, r)
            | _ => none
          else if c = 't' then
            match rest with
            | 'r' :: 'u' :: 'e' :: r => some (.vBool true, r)
            | _ => none
          else if c = 'f' then
            match rest with
            | 'a' :: 'l' :: 's' :: 'e' :: r => some (.vBool false, r)
            | _ => none
          else if c = '"' then (parseStrBody rest).map (fun pr => (.vStr pr.1, pr.2))
          else if c = '[' then
            if headIs ']' rest then some (.vArr [], rest.tail)
            else (parseElems f rest).map (fun pr => (.vArr pr.1, pr.2))
          else if c = '{' then
            if headIs '}' rest then some (.vObj [], rest.tail)
            else (parseObjFields f rest).map (fun pr => (.vObj pr.1, pr.2))
          else if c = '-' then
            (parseDigits rest).map (fun pr => (.vNum (-(pr.1 : Int)), pr.2))
          else if isDigitChar c then
            (parseDigits (c :: rest)).map (fun pr => (.vNum (pr.1 : Int), pr.2))
          else none

/-- One or more comma-separated elements followed by `]`. -/
def parseElems : Nat → JSStr → Option (List Value × JSStr)
  | 0, _ => none
  | f + 1, s =>
      match parseV f s with
      | some (v, r) =>
          (match r with
           | ']' :: r2 => some ([v], r2)
           | ',' :: r2 =>
               (match parseElems f r2 with
                | some (vs, r3) => some (v :: vs, r3)
                | none => none)
           | _ => none)
      | none => none

/-- One or more comma-separated `"key":value` fields followed by `}`. -/
def parseObjFields : Nat → JSStr → Option (List (JSStr × Value) × JSStr)
  | 0, _ => none
  | _ + 1, [] => none
  | f + 1, c :: r0 =>
      if c = '"' then
          (match parseStrBody r0 with
           | some (k, r1) =>
               (match r1 with
                | ':' :: r2 =>
                    (match parseV f r2 with
                     | some (v, r3) =>
                         (match r3 with
                          | '}' :: r4 => some ([(k, v)], r4)
                          | ',' :: r4 =>
                              (match parseObjFields f r4 with
                               | some (fs, r5) => some ((k, v) :: fs, r5)
                               | none => none)
                          | _ => none)
                     | none => none)
                | _ => none)
           | none => none)
      else none
end

/-- `JSON.parse(s)` (no reviver): parse with ample fuel and require full
consumption of the input. -/
def jsonParse (s : JSStr) : Option Value :=
  match parseV (2 * s.length + 2) s with
  | some (v, []) => some v
  | _ => none

/-- `String.prototype.split` helper: the text before the first
occurrence of the (non-empty) separator, and the remainder after it. -/
def split1 (d : JSStr) : JSStr → Option (JSStr × JSStr)
  | [] => none
  | c :: rest =>
      if leadsWith d (c :: rest) then some ([], (c :: rest).drop d.length)
      else
        match split1 d rest with
        | some pr => some (c :: pr.1, pr.2)
        | none => none

/-- Fuelled splitting loop (each step consumes at least one character of
the input, so `length + 1` fuel suffices). -/
def splitGo (d : JSStr) : Nat → JSStr → List JSStr
  | 0, s => [s]
  | f + 1, s =>
      match split1 d s with
      | none => [s]
      | some pr => pr.1 :: splitGo d f pr.2

/-- JS `s.split(d)`: every-character split for the empty separator,
otherwise repeated splitting at the first occurrence. -/
def splitOn (d s : JSStr) : List JSStr :=
  match d with
  | [] => s.map (fun c => [c])
  | _ => splitGo d (s.length + 1) s

namespace DynamicDataStore

/-- `parseIndex(index)`: split on the delimiter; if the segment count
differs from the configured index-key count, throw `invalid index`;
otherwise assign `JSON.parse(segment)` (NO reviver) to each index key in
order. -/
def parseIndex (s : Store) (index : JSStr) : Except JSStr RecordV :=
  let values := splitOn s.cfg.delim index
  if values.length = s.cfg.indicies.length then
    (s.cfg.indicies.zip values).foldlM
      (fun acc kv =>
        match jsonParse kv.2 with
        | some v => Except.ok (setField acc kv.1 v)
        | none => Except.error (strC "invalid JSON in index segment"))
      []
  else Except.error (strC "invalid index " ++ index)

end DynamicDataStore

/-- Lexicographic JS string comparison `a < b` (by code unit). -/
def ltB : JSStr → JSStr → Bool
  | [], [] => false
  | [], _ :: _ => true
  | _ :: _, [] => false
  | a :: as, b :: bs => if a < b then true else if b < a then false else ltB as bs

/-- Sort direction of `orderBy`. -/
inductive Order where
  | asc
  | desc

/-- The high-value sentinel `'香'.repeat(6)` assigned to null/
undefined ordering fields. -/
def highValueCharacters : JSStr := strC "香香香香香香"

/-- The comparison string a record is projected to by `orderBy`: the
listed fields' encodings concatenated, the sentinel for nullish fields;
the whole record's encoding when no keys are given. -/
def orderKeyStr (keys : List JSStr) (r : RecordV) : JSStr :=
  if keys.isEmpty then jsonStringify (.vObj r)
  else
    keys.foldl
      (fun acc k =>
        acc ++
          match lookupF r k with
          | none => highValueCharacters
          | some .vNull => highValueCharacters
          | some v => jsonStringify v)
      []

/-- The comparator passed to `Array.prototype.sort` by `orderBy`. -/
def sortCmp (order : Order) (keys : List JSStr) (a b : RecordV) : Int :=
  let aStr := orderKeyStr keys a
  let bStr := orderKeyStr keys b
  if ltB aStr bStr then
    match order with
    | .asc => -1
    | .desc => 1
  else if ltB bStr aStr then
    match order with
    | .asc => 1
    | .desc => -1
  else 0

/-- Ordered insertion for the model of `Array.prototype.sort`. -/
def insertLe (le : α → α → Bool) (x : α) : List α → List α
  | [] => [x]
  | y :: ys => if le x y then x :: y :: ys else y :: insertLe le x ys

/-- Insertion sort: a stable sort producing a list sorted under the
comparator, which is what `Array.prototype.sort` guarantees for a
consistent comparator. -/
def sortLe (le : α → α → Bool) (l : List α) : List α := l.foldr (insertLe le) []

/-- `DynamicDataStoreRecords.orderBy(order, ...keys)`. -/
def orderBy (order : Order) (keys : List JSStr) (recs : List RecordV) : List RecordV :=
  sortLe (fun a b => sortCmp order keys a b ≤ 0) recs

/-- A record field is nullish for ordering purposes when absent or null. -/
def nullishField (r : RecordV) (k : JSStr) : Bool :=
  match lookupF r k with
  | none => true
  | some .vNull => true
  | some _ => false

/-! ### Basic facts about the embedding -/

theorem natChars_ne_nil (n : Nat) : natChars n ≠ [] := by
  unfold natChars natCharsGo
  split
  · simp
  · simp

theorem intChars_ne_nil (i : Int) : intChars i ≠ [] := by
  unfold intChars
  split
  · simp
  · exact natChars_ne_nil _

theorem boolChars_ne_nil (b : Bool) : boolChars b ≠ [] := by
  cases b <;> decide

theorem matcherJson_ne_nil (m : ValueMatcher) : matcherJson m ≠ [] := by
  cases m <;> simp [matcherJson]

theorem jsonStringifyQV_ne_nil (qv : QVal) : jsonStringifyQV qv ≠ [] := by
  cases qv with
  | qMatcher m => exact matcherJson_ne_nil m
  | qNull => decide
  | qNum n => exact intChars_ne_nil n
  | qBool b => cases b <;> decide
  | qStr s => simp [jsonStringifyQV, encStr]
  | qArr es => simp [jsonStringifyQV]
  | qObj fs => simp [jsonStringifyQV]
  | qMap en => simp [jsonStringifyQV]
  | qSet es => simp [jsonStringifyQV]

theorem hasAll_indicies_ne_nil {cfg : StoreCfg} {q : QueryV}
    (h : DynamicDataStore.hasAllIndexProperties cfg q = true) : cfg.indicies ≠ [] := by
  intro hnil
  unfold DynamicDataStore.hasAllIndexProperties at h
  rw [hnil] at h
  simp at h

theorem getIndex_ne_nil (cfg : StoreCfg) (q : QueryV) :
    DynamicDataStore.getIndex cfg q ≠ [] := by
  unfold DynamicDataStore.getIndex
  split
  case isTrue h =>
    have hne := hasAll_indicies_ne_nil h
    cases hl : cfg.indicies with
    | nil => exact absurd hl hne
    | cons k ks =>
      cases ks with
      | nil =>
        simp only [List.map, joinD]
        split
        · exact jsonStringifyQV_ne_nil _
        · decide
      | cons k2 ks2 =>
        simp only [List.map, joinD]
        intro hc
        have h1 : (match getFieldQ q k with
            | some qv => jsonStringifyQV qv
            | none => strC "undefined") = [] :=
          (List.append_eq_nil.mp (List.append_eq_nil.mp hc).1).1
        revert h1
        split
        · exact jsonStringifyQV_ne_nil _
        · decide
  case isFalse h =>
    simp [jsonStringifyQV]

theorem getIndexR_ne_nil (cfg : StoreCfg) (r : RecordV) :
    DynamicDataStore.getIndexR cfg r ≠ [] := getIndex_ne_nil cfg _

theorem mapGet_cons (k' : JSStr) (v' : α) (rest : List (JSStr × α)) (b : JSStr) :
    mapGet ((k', v') :: rest) b = if k' = b then some v' else mapGet rest b := by
  by_cases h : k' = b
  · simp [mapGet, List.find?_cons_of_pos, h]
  · have hb : ((k', v').1 == b) = false := by simp [h]
    simp [mapGet, List.find?_cons_of_neg, hb, h]

theorem mapGet_mapSet (t : List (JSStr × α)) (a b : JSStr) (v : α) :
    mapGet (mapSet t a v) b = if a = b then some v else mapGet t b := by
  induction t with
  | nil => simp [mapSet, mapGet_cons, mapGet]
  | cons p rest ih =>
    obtain ⟨k', v'⟩ := p
    simp only [mapSet]
    by_cases hka : k' = a
    · rw [if_pos (by simp [hka])]
      by_cases hab : a = b
      · rw [mapGet_cons, if_pos (hka.trans hab), if_pos hab]
      · rw [mapGet_cons, if_neg (fun hc => hab (hka ▸ hc)), if_neg hab,
          mapGet_cons, if_neg (fun hc => hab (hka ▸ hc))]
    · rw [if_neg (by simp [hka])]
      by_cases hkb : k' = b
      · have hab : ¬ a = b := fun hc => hka (by rw [hc, hkb])
        rw [mapGet_cons, if_pos hkb, if_neg hab, mapGet_cons, if_pos hkb]
      · rw [mapGet_cons, if_neg hkb, ih]
        by_cases hab : a = b
        · rw [if_pos hab, if_pos hab]
        · rw [if_neg hab, if_neg hab, mapGet_cons, if_neg hkb]

/-! ### C7 — matcher boundary exactness -/

/-- C7: `between(1,10)` is inclusive at both ends while `greaterThan`
and `lessThan` are strict: `between(1,10).isMatch(1)` and
`between(1,10).isMatch(10)` are true, `between(1,10).isMatch(0)`,
`greaterThan(0).isMatch(0)` and `lessThan(0).isMatch(0)` are false. -/
theorem matcher_boundary_exactness :
    (between (some (.num 1)) (some (.num 10))).isMatch (some (.vNum 1)) = true ∧
    (between (some (.num 1)) (some (.num 10))).isMatch (some (.vNum 10)) = true ∧
    (between (some (.num 1)) (some (.num 10))).isMatch (some (.vNum 0)) = false ∧
    (greaterThan (some (.num 0))).isMatch (some (.vNum 0)) = false ∧
    (lessThan (some (.num 0))).isMatch (some (.vNum 0)) = false := by
  refine ⟨?_, ?_, ?_, ?_, ?_⟩ <;> decide

/-! ### C6 — matcher behaviour on null/undefined actual values -/

/-- The seven concrete matchers that are neither `HavingValue` nor a
`Not` wrapper. -/
def ValueMatcher.isBasic : ValueMatcher → Bool
  | .Between _ _ => true
  | .GreaterThan _ => true
  | .LessThan _ => true
  | .Containing _ => true
  | .Matching _ => true
  | .StartingWith _ => true
  | .EndingWith _ => true
  | .HavingValue => false
  | .Not _ => false

/-- C6 (corrected): every basic matcher returns `false` on a null or
undefined actual value and never throws (totality is intrinsic here);
`HavingValue.isMatch` returns true precisely when the actual value is
non-nullish; but `Not` simply negates its inner matcher, so a
`Not`-wrapped matcher returns TRUE on null whenever its inner matcher
returns false there — `not(havingValue())` being the simplest example. -/
theorem matcher_null_behavior (m : ValueMatcher) (o : Option Value) :
    (m.isBasic = true → isNullish o = true → m.isMatch o = false) ∧
    (ValueMatcher.HavingValue.isMatch o = !(isNullish o)) ∧
    (ValueMatcher.isMatch (.Not m) o = !(m.isMatch o)) := by
  refine ⟨?_, rfl, rfl⟩
  intro hb hn
  cases o with
  | none => cases m <;> first | rfl | exact Bool.noConfusion hb
  | some v =>
    cases v <;> simp [isNullish] at hn
    cases m <;> first | rfl | exact Bool.noConfusion hb

/-- Witness for C6's theorem at `between()` (all-default bounds) and a
null actual value, including the negation behaviour of `Not`. -/
theorem matcher_null_behavior_witness :
    (between none none).isBasic = true ∧ isNullish (some .vNull) = true ∧
    (between none none).isMatch (some .vNull) = false ∧
    ValueMatcher.isMatch (.Not (between none none)) (some .vNull) = true := by
  have h := matcher_null_behavior (between none none) (some .vNull)
  refine ⟨rfl, rfl, h.1 rfl rfl, ?_⟩
  rw [h.2.2, h.1 rfl rfl]
  rfl

/-- C6 counterexample: the claim demands `isMatch(null) = false` for
every matcher other than `HavingValue`, "including Not-wrapped matchers
such as not(havingValue())" — but `not(havingValue()).isMatch(null)` is
`true` in the source (Not negates, and `havingValue().isMatch(null)` is
false). -/
theorem not_havingValue_null_counterexample :
    (ValueMatcher.not havingValue).isMatch (some .vNull) = true := rfl

/-! ### C4 — nested queries: standalone filter vs. the store's scan -/

/-- Record 1 of the repo's `allows queries to search nested objects`
test. -/
def c4r1 : RecordV :=
  [(strC "strKey", .vStr (strC "foo")), (strC "boolKey", .vBool true),
   (strC "numKey", .vNum 1), (strC "objKey", .vObj [(strC "strKey", .vStr (strC "bar"))])]

def c4r2 : RecordV :=
  [(strC "strKey", .vStr (strC "foo")), (strC "boolKey", .vBool false),
   (strC "numKey", .vNum 2), (strC "objKey", .vObj [(strC "strKey", .vStr (strC "baz"))])]

def c4r3 : RecordV :=
  [(strC "strKey", .vStr (strC "foo")), (strC "boolKey", .vBool false),
   (strC "numKey", .vNum 1), (strC "objKey", .vObj [(strC "strKey", .vStr (strC "bar"))])]

def c4r4 : RecordV :=
  [(strC "strKey", .vStr (strC "foo")), (strC "boolKey", .vBool true),
   (strC "numKey", .vNum 2), (strC "objKey", .vObj [(strC "strKey", .vStr (strC "baz"))])]

def c4r5 : RecordV :=
  [(strC "strKey", .vStr (strC "bar")), (strC "boolKey", .vBool true),
   (strC "numKey", .vNum 1), (strC "objKey", .vObj [(strC "strKey", .vStr (strC "bar"))])]

def c4r6 : RecordV :=
  [(strC "strKey", .vStr (strC "bar")), (strC "boolKey", .vBool false),
   (strC "numKey", .vNum 2), (strC "objKey", .vObj [(strC "strKey", .vStr (strC "baz"))])]

def c4r7 : RecordV :=
  [(strC "strKey", .vStr (strC "bar")), (strC "boolKey", .vBool false),
   (strC "numKey", .vNum 1), (strC "objKey", .vObj [(strC "strKey", .vStr (strC "bar"))])]

def c4r8 : RecordV :=
  [(strC "strKey", .vStr (strC "bar")), (strC "boolKey", .vBool true),
   (strC "numKey", .vNum 2), (strC "objKey", .vObj [(strC "strKey", .vStr (strC "baz"))])]

/-- The eight records of the nested-object-query test. -/
def c4records : List RecordV := [c4r1, c4r2, c4r3, c4r4, c4r5, c4r6, c4r7, c4r8]

/-- The store of the nested-object-query test
(`indicies: ['strKey','boolKey','numKey']`). -/
def c4store : Store :=
  mkStore ⟨some [strC "strKey", strC "boolKey", strC "numKey"], some c4records, none⟩

/-- The test's nested query `{strKey:'foo', objKey:{strKey:'bar'}}`. -/
def c4query : QueryV :=
  [(strC "strKey", .qStr (strC "foo")),
   (strC "objKey", .qObj [(strC "strKey", .qStr (strC "bar"))])]

/-- C4 (code bug): the standalone `Query.filterBy` does perform the
recursive nested-object descent and selects exactly the two `foo`
records whose `objKey.strKey` is `'bar'` — but the store's general scan
path (`_performQuery`), used by select/size/delete/update, compares
non-matcher query values with strict `===` (reference equality for
objects) instead of descending, so the same nested query matches NOTHING
against the store.  The repo's own test
(`allows queries to search nested objects`) runs this very query through
`store.select` and expects those 2 records, which the code under
src/src/dynamic-data-store.ts cannot deliver. -/
theorem store_scan_ignores_nested_query_bug :
    DynamicDataStore.performQuery c4store (some c4query) = [] ∧
    Query.filterBy (some c4query) c4records = [c4r1, c4r3] ∧
    c4store.table.length = 8 := by
  refine ⟨rfl, rfl, rfl⟩

/-! ### C2 — add never sees an absent key -/

/-- C2 (corrected): `getIndex` never returns an absent/empty key — when
some configured index field is missing, null or a matcher it falls back
to the whole-record canonical encoding — so `add` returns false exactly
when a record already occupies the derived key, and otherwise inserts
(even for records that are missing index-field values, which the claim
says must be rejected). -/
theorem add_key_never_absent (s : Store) (r : RecordV) :
    DynamicDataStore.getIndexR s.cfg r ≠ [] ∧
    (mapGet s.table (DynamicDataStore.getIndexR s.cfg r) = none →
      DynamicDataStore.add s r =
        (true, ⟨s.cfg, mapSet s.table (DynamicDataStore.getIndexR s.cfg r) r⟩)) ∧
    (mapGet s.table (DynamicDataStore.getIndexR s.cfg r) ≠ none →
      DynamicDataStore.add s r = (false, s)) := by
  refine ⟨getIndexR_ne_nil s.cfg r, ?_, ?_⟩
  · intro hfree
    unfold DynamicDataStore.add
    rw [if_pos]
    simp [hfree, List.isEmpty_iff, getIndexR_ne_nil s.cfg r]
  · intro hocc
    unfold DynamicDataStore.add
    rw [if_neg]
    simp only [Bool.and_eq_true, Option.isNone_iff_eq_none]
    intro hc
    exact hocc hc.2

/-- Witness for C2's theorem: a store with `indicies=['a']` and a
record `{b:1}` lacking the index field — the code inserts the record
under its whole-record key `'{"b":1}'` and returns true. -/
theorem add_key_never_absent_witness :
    DynamicDataStore.add (mkStore ⟨some [strC "a"], none, none⟩) [(strC "b", .vNum 1)] =
      (true, ⟨⟨[strC "a"], strC "-"⟩,
        [(strC "\x7b\"b\":1\x7d", [(strC "b", .vNum 1)])]⟩) ∧
    (mkStore ⟨some [strC "a"], none, none⟩).table = [] := by
  have h := (add_key_never_absent (mkStore ⟨some [strC "a"], none, none⟩)
    [(strC "b", .vNum 1)]).2.1 rfl
  rw [h]
  exact ⟨rfl, rfl⟩

/-- Counterexample to C2 as written: on `add({b:1})` with
`indicies=['a']` the index field `a` is missing, so the claim demands
the call return false and leave the store unchanged; the code instead
returns true (inserting under the whole-record fallback key). -/
theorem add_missing_index_counterexample :
    DynamicDataStore.add (mkStore ⟨some [strC "a"], none, none⟩) [(strC "b", .vNum 1)] ≠
      (false, mkStore ⟨some [strC "a"], none, none⟩) ∧
    (DynamicDataStore.add (mkStore ⟨some [strC "a"], none, none⟩)
      [(strC "b", .vNum 1)]).1 = true := by
  refine ⟨?_, rfl⟩
  intro hc
  exact Bool.noConfusion (congrArg Prod.fst hc)

/-! ### C9 — the key-lookup fast path ignores non-index query fields -/

theorem getIndex_congr {cfg : StoreCfg} {q q' : QueryV}
    (h : DynamicDataStore.hasAllIndexProperties cfg q = true)
    (h' : DynamicDataStore.hasAllIndexProperties cfg q' = true)
    (hagree : ∀ k ∈ cfg.indicies, getFieldQ q k = getFieldQ q' k) :
    DynamicDataStore.getIndex cfg q = DynamicDataStore.getIndex cfg q' := by
  unfold DynamicDataStore.getIndex
  rw [if_pos h, if_pos h']
  congr 1
  exact List.map_congr_left (fun k hk => by rw [hagree k hk])

/-- C9 (implicit behaviour, confirmed): whenever a query supplies
non-matcher, non-null values for every configured index field,
`_performQuery` resolves it purely by key lookup under
`getIndex(query)` — which is built from the index-field values alone —
so any extra non-index fields in the query are ignored: two such
queries agreeing on the index fields produce identical results, and the
single record stored under the key is returned (or affected, for
update/delete) even if its other fields differ from the query's. -/
theorem fast_path_ignores_non_index_fields (s : Store) (q : QueryV)
    (h : DynamicDataStore.hasAllIndexProperties s.cfg q = true) :
    DynamicDataStore.performQuery s (some q) =
      (match mapGet s.table (DynamicDataStore.getIndex s.cfg q) with
       | some v => [v]
       | none => []) ∧
    (∀ q', DynamicDataStore.hasAllIndexProperties s.cfg q' = true →
      (∀ k ∈ s.cfg.indicies, getFieldQ q k = getFieldQ q' k) →
      DynamicDataStore.performQuery s (some q) =
        DynamicDataStore.performQuery s (some q')) := by
  constructor
  · simp only [DynamicDataStore.performQuery, h, if_true]
  · intro q' h' hagree
    simp only [DynamicDataStore.performQuery, h, h', if_true]
    rw [getIndex_congr h h' hagree]

/-- The single record of the C9 witness store. -/
def c9rec : RecordV := [(strC "a", .vNum 1), (strC "b", .vNum 2)]

/-- Witness store: `indicies=['a']` holding `{a:1, b:2}`. -/
def c9store : Store := mkStore ⟨some [strC "a"], some [c9rec], none⟩

/-- Witness query `{a:1, b:999}`: supplies the index field plus a
non-index field whose value DIFFERS from the stored record's. -/
def c9q : QueryV := [(strC "a", .qNum 1), (strC "b", .qNum 999)]

/-- Witness for C9: the query's `b:999` is ignored — the fast path
returns the stored record even though its `b` is 2, not 999. -/
theorem fast_path_ignores_non_index_fields_witness :
    DynamicDataStore.hasAllIndexProperties c9store.cfg c9q = true ∧
    DynamicDataStore.performQuery c9store (some c9q) = [c9rec] ∧
    lookupF c9rec (strC "b") = some (.vNum 2) := by
  have h := (fast_path_ignores_non_index_fields c9store c9q rfl).1
  rw [h]
  exact ⟨rfl, rfl, rfl⟩

/-! ### C10 — constructor retains the earliest record per key -/

theorem add_cfg (s : Store) (r : RecordV) : (DynamicDataStore.add s r).2.cfg = s.cfg := by
  unfold DynamicDataStore.add
  dsimp only
  split <;> rfl

theorem foldAdd_mapGet (rs : List RecordV) (s : Store) (k : JSStr) :
    mapGet (rs.foldl (fun s r => (DynamicDataStore.add s r).2) s).table k =
      (mapGet s.table k).or
        (rs.find? (fun r => DynamicDataStore.getIndexR s.cfg r == k)) := by
  induction rs generalizing s with
  | nil => simp
  | cons r rs ih =>
    simp only [List.foldl_cons, List.find?]
    rw [ih, add_cfg]
    unfold DynamicDataStore.add
    dsimp only
    by_cases hk : DynamicDataStore.getIndexR s.cfg r = k
    · subst hk
      simp only [beq_self_eq_true]
      split
      next hcond =>
        have hocc : mapGet s.table (DynamicDataStore.getIndexR s.cfg r) = none :=
          Option.isNone_iff_eq_none.mp ((Bool.and_eq_true _ _).mp hcond).2
        dsimp only
        rw [mapGet_mapSet, if_pos rfl, hocc]
        simp
      next hcond =>
        have hocc : ∃ v, mapGet s.table (DynamicDataStore.getIndexR s.cfg r) = some v := by
          rcases ho : mapGet s.table (DynamicDataStore.getIndexR s.cfg r) with _ | v
          · exact absurd (by simp [ho, List.isEmpty_iff, getIndexR_ne_nil]) hcond
          · exact ⟨v, rfl⟩
        obtain ⟨v, hv⟩ := hocc
        dsimp only
        rw [hv]
        simp
    · have hbeq : (DynamicDataStore.getIndexR s.cfg r == k) = false := by
        simp [hk]
      rw [hbeq]
      dsimp only
      split
      · dsimp only
        rw [mapGet_mapSet, if_neg hk]
      · rfl

/-- C10 (implicit behaviour, confirmed): constructing a store with
initial records adds them one at a time in sequence order through
`add`, so for every key the retained record is the EARLIEST supplied
record deriving that key — later colliding records are silently
discarded — and construction is total (never throws on duplicates). -/
theorem constructor_keeps_earliest_on_collision (opts : StoreOptions) (k : JSStr) :
    mapGet (mkStore opts).table k =
      (opts.records.getD []).find?
        (fun r => DynamicDataStore.getIndexR
          ⟨opts.indicies.getD [], opts.delimiter.getD ['-']⟩ r == k) := by
  unfold mkStore
  rw [foldAdd_mapGet]
  simp [mapGet]

/-! ### Store well-formedness and the found-record lemmas -/

/-- A store is well-formed when every table entry sits under the key
derived from its record and keys are unique.  `add`, the constructor,
`delete` and `clear` preserve this; an `update` that changes an
index-field value breaks it (see C1). -/
def WF (s : Store) : Prop :=
  (∀ p ∈ s.table, p.1 = DynamicDataStore.getIndexR s.cfg p.2) ∧
  (s.table.map Prod.fst).Nodup

theorem mapGet_some_mem {t : List (JSStr × α)} {k : JSStr} {v : α}
    (h : mapGet t k = some v) : v ∈ mapValues t := by
  unfold mapGet at h
  cases hf : t.find? (fun p => p.1 == k) with
  | none => rw [hf] at h; exact Option.noConfusion h
  | some p =>
    rw [hf] at h
    have hp : p ∈ t := List.mem_of_find?_eq_some hf
    have : p.2 = v := Option.some.inj h
    exact this ▸ List.mem_map_of_mem Prod.snd hp

theorem mapGet_some_key_mem {t : List (JSStr × α)} {k : JSStr} {v : α}
    (h : mapGet t k = some v) : k ∈ t.map Prod.fst := by
  unfold mapGet at h
  cases hf : t.find? (fun p => p.1 == k) with
  | none => rw [hf] at h; exact Option.noConfusion h
  | some p =>
    have hp : p ∈ t := List.mem_of_find?_eq_some hf
    have hbeq := List.find?_some hf
    have : p.1 = k := by simpa using hbeq
    exact this ▸ List.mem_map_of_mem Prod.fst hp

theorem performQuery_mem {s : Store} {q : Option QueryV} {r : RecordV}
    (hr : r ∈ DynamicDataStore.performQuery s q) : r ∈ mapValues s.table := by
  cases q with
  | none => exact hr
  | some qq =>
    simp only [DynamicDataStore.performQuery] at hr
    by_cases h : DynamicDataStore.hasAllIndexProperties s.cfg qq = true
    · rw [if_pos h] at hr
      cases hget : mapGet s.table (DynamicDataStore.getIndex s.cfg qq) with
      | none => rw [hget] at hr; exact absurd hr (List.not_mem_nil r)
      | some v =>
        rw [hget] at hr
        have : r = v := List.mem_singleton.mp hr
        exact this ▸ mapGet_some_mem hget
    · rw [if_neg h] at hr
      exact List.mem_of_mem_filter hr

theorem mapGet_of_mem_nodup {t : List (JSStr × α)} (hnd : (t.map Prod.fst).Nodup)
    {p : JSStr × α} (hp : p ∈ t) : mapGet t p.1 = some p.2 := by
  induction t with
  | nil => exact absurd hp (List.not_mem_nil p)
  | cons hd rest ih =>
    rcases List.mem_cons.mp hp with heq | hmem
    · subst heq
      rw [mapGet_cons, if_pos rfl]
    · have hne : hd.1 ≠ p.1 := by
        intro hc
        have : p.1 ∈ rest.map Prod.fst := List.mem_map_of_mem Prod.fst hmem
        rw [← hc] at this
        exact (List.nodup_cons.mp hnd).1 this
      rw [mapGet_cons, if_neg hne]
      exact ih (List.nodup_cons.mp hnd).2 hmem

theorem wf_found_key {s : Store} (hwf : WF s) {q : Option QueryV} {r : RecordV}
    (hr : r ∈ DynamicDataStore.performQuery s q) :
    mapGet s.table (DynamicDataStore.getIndexR s.cfg r) = some r := by
  have hv : r ∈ mapValues s.table := performQuery_mem hr
  obtain ⟨p, hp, hpr⟩ := List.mem_map.mp hv
  have hkey : p.1 = DynamicDataStore.getIndexR s.cfg r := hpr ▸ hwf.1 p hp
  have := mapGet_of_mem_nodup hwf.2 hp
  rw [hkey, hpr] at this
  exact this

theorem table_pairwise_keys {s : Store} (hwf : WF s) :
    s.table.Pairwise (fun p p' =>
      DynamicDataStore.getIndexR s.cfg p.2 ≠ DynamicDataStore.getIndexR s.cfg p'.2) := by
  have h1 : s.table.Pairwise (fun p p' => p.1 ≠ p'.1) := List.pairwise_map.mp hwf.2
  exact h1.imp_of_mem (fun {a b} ha hb hne => by
    rw [← hwf.1 a ha, ← hwf.1 b hb]
    exact hne)

theorem wf_found_pairwise {s : Store} (hwf : WF s) (q : Option QueryV) :
    (DynamicDataStore.performQuery s q).Pairwise
      (fun a b => DynamicDataStore.getIndexR s.cfg a ≠ DynamicDataStore.getIndexR s.cfg b) := by
  have hvals : (mapValues s.table).Pairwise
      (fun a b => DynamicDataStore.getIndexR s.cfg a ≠ DynamicDataStore.getIndexR s.cfg b) :=
    List.pairwise_map.mpr (table_pairwise_keys hwf)
  cases q with
  | none => exact hvals
  | some qq =>
    simp only [DynamicDataStore.performQuery]
    by_cases h : DynamicDataStore.hasAllIndexProperties s.cfg qq = true
    · rw [if_pos h]
      cases mapGet s.table (DynamicDataStore.getIndex s.cfg qq) with
      | none => exact List.Pairwise.nil
      | some v => exact List.pairwise_singleton _ v
    · rw [if_neg h]
      exact hvals.filter _

/-! ### C3 — delete semantics -/

theorem mapDelete_eq_filter {t : List (JSStr × α)} (hnd : (t.map Prod.fst).Nodup)
    (k : JSStr) : mapDelete t k = t.filter (fun p => !(p.1 == k)) := by
  induction t with
  | nil => rfl
  | cons hd rest ih =>
    simp only [mapDelete]
    by_cases hk : hd.1 = k
    · rw [if_pos (by simp [hk])]
      have hfr : rest.filter (fun p => !(p.1 == k)) = rest := by
        apply List.filter_eq_self.mpr
        intro p hp
        have hne : p.1 ≠ k := by
          intro hc
          have h1 : p.1 ∈ rest.map Prod.fst := List.mem_map_of_mem Prod.fst hp
          rw [hc, ← hk] at h1
          exact (List.nodup_cons.mp hnd).1 h1
        simp [hne]
      rw [List.filter_cons, if_neg (by simp [hk]), hfr]
    · rw [if_neg (by simp [hk]), List.filter_cons, if_pos (by simp [hk])]
      rw [ih (List.nodup_cons.mp hnd).2]

theorem mapDelete_keys_nodup {t : List (JSStr × α)} (hnd : (t.map Prod.fst).Nodup)
    (k : JSStr) : ((mapDelete t k).map Prod.fst).Nodup := by
  rw [mapDelete_eq_filter hnd]
  exact hnd.sublist ((List.filter_sublist t).map Prod.fst)

theorem mapDelete_length_of_mem {t : List (JSStr × α)} {k : JSStr}
    (hk : k ∈ t.map Prod.fst) : (mapDelete t k).length + 1 = t.length := by
  induction t with
  | nil => exact absurd hk (List.not_mem_nil k)
  | cons hd rest ih =>
    simp only [mapDelete]
    by_cases hhd : hd.1 = k
    · rw [if_pos (by simp [hhd])]
      rfl
    · rw [if_neg (by simp [hhd])]
      have hkr : k ∈ rest.map Prod.fst := by
        rcases List.mem_cons.mp hk with heq | hmem
        · exact absurd heq.symm hhd
        · exact hmem
      simp only [List.length_cons]
      rw [← ih hkr]

theorem mapDelete_not_mem_keys {t : List (JSStr × α)} (hnd : (t.map Prod.fst).Nodup)
    {k k' : JSStr} (hne : k' ≠ k) (hk' : k' ∈ t.map Prod.fst) :
    k' ∈ (mapDelete t k).map Prod.fst := by
  rw [mapDelete_eq_filter hnd]
  obtain ⟨p, hp, hpk⟩ := List.mem_map.mp hk'
  have hpf : p ∈ t.filter (fun p => !(p.1 == k)) :=
    List.mem_filter.mpr ⟨hp, by simp [hpk, hne]⟩
  exact hpk ▸ List.mem_map_of_mem Prod.fst hpf

theorem foldDelete_length {keys : List JSStr} :
    ∀ (t : List (JSStr × α)), (t.map Prod.fst).Nodup → keys.Nodup →
    (∀ k ∈ keys, k ∈ t.map Prod.fst) →
    (keys.foldl mapDelete t).length + keys.length = t.length := by
  induction keys with
  | nil => intro t _ _ _; simp
  | cons k keys ih =>
    intro t hnd hknd hmem
    simp only [List.foldl_cons, List.length_cons]
    have h1 := mapDelete_length_of_mem (hmem k (List.mem_cons_self k keys))
    have h2 := ih (mapDelete t k) (mapDelete_keys_nodup hnd k) (List.nodup_cons.mp hknd).2
      (fun k' hk' => mapDelete_not_mem_keys hnd
        (fun hc => (List.nodup_cons.mp hknd).1 (hc ▸ hk')) (hmem k' (List.mem_cons_of_mem k hk')))
    omega

theorem foldDelete_filter {keys : List JSStr} :
    ∀ (t : List (JSStr × α)), (t.map Prod.fst).Nodup →
    keys.foldl mapDelete t = t.filter (fun p => !(keys.contains p.1)) := by
  induction keys with
  | nil => intro t _; simp
  | cons k keys ih =>
    intro t hnd
    simp only [List.foldl_cons]
    rw [ih (mapDelete t k) (mapDelete_keys_nodup hnd k), mapDelete_eq_filter hnd,
      List.filter_filter]
    apply List.filter_congr
    intro p _
    simp only [List.contains_cons]
    cases h1 : p.1 == k <;> cases h2 : keys.contains p.1 <;> rfl

theorem foldDel_store (cfg0 : StoreCfg) (rs : List RecordV) :
    ∀ acc : Store,
    (rs.foldl (fun acc r =>
        let key := DynamicDataStore.getIndexR cfg0 r
        if !key.isEmpty then (⟨cfg0, mapDelete acc.table key⟩ : Store) else acc) acc).table =
      (rs.map (DynamicDataStore.getIndexR cfg0)).foldl mapDelete acc.table := by
  induction rs with
  | nil => intro acc; rfl
  | cons r rs ih =>
    intro acc
    simp only [List.foldl_cons, List.map_cons]
    rw [if_pos (by simp [List.isEmpty_iff, getIndexR_ne_nil])]
    exact ih _

theorem delete_table_fold (s : Store) (q : QueryV) :
    (DynamicDataStore.delete s q).2.table =
      ((DynamicDataStore.performQuery s (some q)).map
        (DynamicDataStore.getIndexR s.cfg)).foldl mapDelete s.table := by
  unfold DynamicDataStore.delete
  exact foldDel_store s.cfg _ s

theorem size_none_eq (s : Store) : DynamicDataStore.size s none = s.table.length := by
  simp [DynamicDataStore.size, DynamicDataStore.performQuery, mapValues]

/-- C3 (corrected): `delete(query)` resolves the query through
`_performQuery` — which DOES use the key-lookup fast path whenever the
query supplies non-matcher, non-null values for every configured index
field, and the scan otherwise.  On a well-formed store it removes from
the table exactly the found records (each by its pre-deletion derived
key), returns them, and `size()` afterwards equals the original size
minus the number of returned records. -/
theorem delete_removes_found_records (s : Store) (hwf : WF s) (q : QueryV) :
    (DynamicDataStore.delete s q).1 = DynamicDataStore.performQuery s (some q) ∧
    (DynamicDataStore.delete s q).2.table =
      s.table.filter (fun p =>
        !(((DynamicDataStore.performQuery s (some q)).map
            (DynamicDataStore.getIndexR s.cfg)).contains p.1)) ∧
    DynamicDataStore.size (DynamicDataStore.delete s q).2 none +
        (DynamicDataStore.performQuery s (some q)).length =
      DynamicDataStore.size s none := by
  have hknd : (((DynamicDataStore.performQuery s (some q)).map
      (DynamicDataStore.getIndexR s.cfg))).Nodup :=
    List.pairwise_map.mpr (wf_found_pairwise hwf (some q))
  have hkmem : ∀ k ∈ (DynamicDataStore.performQuery s (some q)).map
      (DynamicDataStore.getIndexR s.cfg), k ∈ s.table.map Prod.fst := by
    intro k hk
    obtain ⟨r, hr, hrk⟩ := List.mem_map.mp hk
    exact hrk ▸ mapGet_some_key_mem (wf_found_key hwf hr)
  refine ⟨rfl, ?_, ?_⟩
  · rw [delete_table_fold]
    exact foldDelete_filter s.table hwf.2
  · rw [size_none_eq, size_none_eq, delete_table_fold]
    have := foldDelete_length s.table hwf.2 hknd hkmem
    rw [List.length_map] at this
    exact this

/-- The single record of the C3 example store. -/
def c3rec : RecordV := [(strC "a", .vNum 1), (strC "b", .vNum 2)]

/-- Example store with `indicies=['a']` holding `{a:1, b:2}`. -/
def c3store : Store := mkStore ⟨some [strC "a"], some [c3rec], none⟩

/-- The query `{a:1, b:99}`: all index fields supplied, non-index field
mismatching the stored record. -/
def c3q : QueryV := [(strC "a", .qNum 1), (strC "b", .qNum 99)]

/-- C3 counterexample: the claim says delete evaluates the query via the
general scan path, NEVER the key-lookup fast path, and removes exactly
the records matching the query.  But `delete({a:1,b:99})` takes the fast
path (the query has all index properties), returns and removes the
stored record `{a:1,b:2}` even though that record does NOT satisfy the
scan predicate for the query (its `b` is 2, not 99) — under the claimed
semantics the result would have been empty with nothing removed. -/
theorem delete_fast_path_counterexample :
    DynamicDataStore.hasAllIndexProperties c3store.cfg c3q = true ∧
    (DynamicDataStore.delete c3store c3q).1 = [c3rec] ∧
    DynamicDataStore.scanPred c3q c3rec = false ∧
    (DynamicDataStore.delete c3store c3q).2.table = [] :=
  ⟨rfl, rfl, rfl, rfl⟩

/-- Witness for C3's theorem on a concrete well-formed store and a
scan-path query `{b:2}`: delete returns exactly the matching record,
removes it, and the size drops by the returned count. -/
theorem delete_removes_found_records_witness :
    WF c3store ∧
    (DynamicDataStore.delete c3store [(strC "b", .qNum 2)]).1 = [c3rec] ∧
    (DynamicDataStore.delete c3store [(strC "b", .qNum 2)]).2.table = [] ∧
    DynamicDataStore.size (DynamicDataStore.delete c3store [(strC "b", .qNum 2)]).2 none + 1 =
      DynamicDataStore.size c3store none := by
  have hwf : WF c3store := ⟨by decide, by decide⟩
  have h := delete_removes_found_records c3store hwf [(strC "b", .qNum 2)]
  refine ⟨hwf, rfl, ?_, ?_⟩
  · rw [h.2.1]
    rfl
  · exact h.2.2

/-! ### C1 — update semantics -/

theorem lookupF_eq_mapGet (fs : RecordV) (k : JSStr) : lookupF fs k = mapGet fs k := rfl

theorem lookupF_cons (k0 : JSStr) (v0 : Value) (rest : RecordV) (k : JSStr) :
    lookupF ((k0, v0) :: rest) k = if k0 = k then some v0 else lookupF rest k :=
  mapGet_cons k0 v0 rest k

theorem lookupF_setField (r : RecordV) (k0 : JSStr) (v0 : Value) (k : JSStr) :
    lookupF (setField r k0 v0) k = if k0 = k then some v0 else lookupF r k :=
  mapGet_mapSet r k0 k v0

theorem lookupF_none_of_not_mem {fs : RecordV} {k : JSStr}
    (h : k ∉ fs.map Prod.fst) : lookupF fs k = none := by
  induction fs with
  | nil => rfl
  | cons hd rest ih =>
    have hmem0 : hd.1 ∈ (hd :: rest).map Prod.fst :=
      List.mem_map_of_mem Prod.fst (List.mem_cons_self hd rest)
    have hstep : lookupF (hd :: rest) k = if hd.1 = k then some hd.2 else lookupF rest k :=
      mapGet_cons hd.1 hd.2 rest k
    rw [hstep, if_neg (fun (hc : hd.1 = k) => h (hc ▸ hmem0))]
    exact ih (fun hc => h (List.mem_cons_of_mem _ hc))

/-- Shallow-merge semantics of the object spread `{...r, ...u}`: fields
named in `u` take `u`'s (first) value, all other fields keep `r`'s. -/
theorem mergeRec_lookup (u : RecordV) (hu : (u.map Prod.fst).Nodup) :
    ∀ (r : RecordV) (k : JSStr),
    lookupF (mergeRec r u) k =
      match lookupF u k with
      | some v => some v
      | none => lookupF r k := by
  induction u with
  | nil => intro r k; rfl
  | cons p u' ih =>
    intro r k
    obtain ⟨k0, v0⟩ := p
    have hstep : mergeRec r ((k0, v0) :: u') = mergeRec (setField r k0 v0) u' := rfl
    rw [hstep, ih (List.nodup_cons.mp hu).2]
    by_cases hk : k0 = k
    · subst hk
      rw [lookupF_cons, if_pos rfl,
        lookupF_none_of_not_mem (List.nodup_cons.mp hu).1]
      show lookupF (setField r k0 v0) k0 = some v0
      rw [lookupF_setField, if_pos rfl]
    · rw [lookupF_cons, if_neg hk]
      cases hlu : lookupF u' k with
      | some v => rfl
      | none =>
        show lookupF (setField r k0 v0) k = lookupF r k
        rw [lookupF_setField, if_neg hk]

theorem foldSet_pair (cfg0 : StoreCfg) (u : RecordV) (rs : List RecordV) :
    ∀ (n : Nat) (t : List (JSStr × RecordV)),
    rs.foldl (fun acc r =>
        let key := DynamicDataStore.getIndexR cfg0 r
        if !key.isEmpty then
          (acc.1 + 1, (⟨cfg0, mapSet acc.2.table key (mergeRec r u)⟩ : Store))
        else acc) ((n, ⟨cfg0, t⟩) : Nat × Store) =
      (n + rs.length,
        ⟨cfg0, rs.foldl (fun t r =>
          mapSet t (DynamicDataStore.getIndexR cfg0 r) (mergeRec r u)) t⟩) := by
  induction rs with
  | nil =>
    intro n t
    rfl
  | cons r rs ih =>
    intro n t
    simp only [List.foldl_cons, List.length_cons]
    rw [if_pos (by simp [List.isEmpty_iff, getIndexR_ne_nil])]
    rw [ih]
    congr 1
    omega

theorem mapGet_foldSet_ne (cfg0 : StoreCfg) (u : RecordV) {rs : List RecordV} {k : JSStr}
    (hne : ∀ x ∈ rs, DynamicDataStore.getIndexR cfg0 x ≠ k) :
    ∀ t, mapGet (rs.foldl (fun t r =>
        mapSet t (DynamicDataStore.getIndexR cfg0 r) (mergeRec r u)) t) k = mapGet t k := by
  induction rs with
  | nil => intro t; rfl
  | cons r rs ih =>
    intro t
    simp only [List.foldl_cons]
    rw [ih (fun x hx => hne x (List.mem_cons_of_mem r hx)),
      mapGet_mapSet, if_neg (hne r (List.mem_cons_self r rs))]

theorem mapGet_foldSet_mem (cfg0 : StoreCfg) (u : RecordV) {rs : List RecordV}
    (hpw : rs.Pairwise (fun a b =>
      DynamicDataStore.getIndexR cfg0 a ≠ DynamicDataStore.getIndexR cfg0 b))
    {r : RecordV} (hr : r ∈ rs) :
    ∀ t, mapGet (rs.foldl (fun t r =>
        mapSet t (DynamicDataStore.getIndexR cfg0 r) (mergeRec r u)) t)
      (DynamicDataStore.getIndexR cfg0 r) = some (mergeRec r u) := by
  induction rs with
  | nil => exact absurd hr (List.not_mem_nil r)
  | cons hd rs ih =>
    intro t
    simp only [List.foldl_cons]
    rcases List.mem_cons.mp hr with heq | hmem
    · subst heq
      rw [mapGet_foldSet_ne cfg0 u (fun x hx =>
        ((List.pairwise_cons.mp hpw).1 x hx).symm), mapGet_mapSet, if_pos rfl]
    · exact ih (List.pairwise_cons.mp hpw).2 hmem _

/-- C1 (corrected): `update(updates, query?)` targets
`_performQuery(query ?? updates)` and, for each targeted record, stores
the shallow merge `{...target, ...updates}` (fields named in `updates`
replace, all others are preserved) under the key derived from the OLD
(pre-update) record — NOT from the merged record.  After an update that
changes an index-field value the record therefore remains stored under
its old key, and is not reachable under the key its new field values
would derive. -/
theorem update_merges_under_old_key (s : Store) (hwf : WF s) (u : RecordV)
    (hu : (u.map Prod.fst).Nodup) (q : Option QueryV) :
    (DynamicDataStore.update s u q).1 =
      (DynamicDataStore.performQuery s (some (q.getD (queryOfRecord u)))).length ∧
    (∀ r ∈ DynamicDataStore.performQuery s (some (q.getD (queryOfRecord u))),
      mapGet (DynamicDataStore.update s u q).2.table (DynamicDataStore.getIndexR s.cfg r) =
        some (mergeRec r u)) ∧
    (∀ (r : RecordV) (k : JSStr),
      lookupF (mergeRec r u) k =
        match lookupF u k with
        | some v => some v
        | none => lookupF r k) := by
  have hfold := foldSet_pair s.cfg u
    (DynamicDataStore.performQuery s (some (q.getD (queryOfRecord u)))) 0 s.table
  have hupd : DynamicDataStore.update s u q =
      (0 + (DynamicDataStore.performQuery s (some (q.getD (queryOfRecord u)))).length,
        ⟨s.cfg, (DynamicDataStore.performQuery s (some (q.getD (queryOfRecord u)))).foldl
          (fun t r => mapSet t (DynamicDataStore.getIndexR s.cfg r) (mergeRec r u))
          s.table⟩) := hfold
  refine ⟨?_, ?_, fun r k => mergeRec_lookup u hu r k⟩
  · rw [hupd]
    simp
  · intro r hr
    rw [hupd]
    exact mapGet_foldSet_mem s.cfg u (wf_found_pairwise hwf _) hr s.table

/-- The single record of the C1 example store. -/
def c1rec : RecordV := [(strC "a", .vNum 1), (strC "b", .vNum 0)]

/-- Example store with `indicies=['a']` holding `{a:1, b:0}`. -/
def c1store : Store := mkStore ⟨some [strC "a"], some [c1rec], none⟩

/-- The updates object `{a:2}` (changes the index field). -/
def c1upd : RecordV := [(strC "a", .vNum 2)]

/-- The update query `{b:0}` (routes through the scan path). -/
def c1q : QueryV := [(strC "b", .qNum 0)]

/-- C1 counterexample: the claim says the merged record is stored under
the key re-derived from the MERGED record, making it reachable under its
new key after an index-field change.  But `update({a:2}, {b:0})` stores
the merged `{a:2,b:0}` under the OLD record's key `"1"`: the key the
merged record derives (`"2"`) maps to nothing, while the stale key `"1"`
holds the merged record. -/
theorem update_rekey_counterexample :
    (DynamicDataStore.update c1store c1upd (some c1q)).1 = 1 ∧
    DynamicDataStore.getIndexR c1store.cfg (mergeRec c1rec c1upd) = strC "2" ∧
    mapGet (DynamicDataStore.update c1store c1upd (some c1q)).2.table (strC "2") = none ∧
    mapGet (DynamicDataStore.update c1store c1upd (some c1q)).2.table (strC "1") =
      some (mergeRec c1rec c1upd) :=
  ⟨rfl, rfl, rfl, rfl⟩

/-- Witness for C1's theorem at the concrete store: the merge keeps `b`
and replaces `a`, and the merged record sits under the old key. -/
theorem update_merges_under_old_key_witness :
    WF c1store ∧
    mapGet (DynamicDataStore.update c1store c1upd (some c1q)).2.table
      (DynamicDataStore.getIndexR c1store.cfg c1rec) = some (mergeRec c1rec c1upd) ∧
    lookupF (mergeRec c1rec c1upd) (strC "a") = some (.vNum 2) ∧
    lookupF (mergeRec c1rec c1upd) (strC "b") = some (.vNum 0) := by
  have hwf : WF c1store := ⟨by decide, by decide⟩
  have h := update_merges_under_old_key c1store hwf c1upd (by decide) (some c1q)
  refine ⟨hwf, h.2.1 c1rec (List.mem_singleton_self _), rfl, rfl⟩

/-! ### C8 — orderBy places nullish fields last (asc) / first (desc) -/

theorem char_eq_of_not_lt {x y : Char} (h1 : ¬ x < y) (h2 : ¬ y < x) : x = y :=
  le_antisymm (not_lt.mp h2) (not_lt.mp h1)

theorem ltB_trans : ∀ (a b c : JSStr), ltB a b = true → ltB b c = true → ltB a c = true := by
  intro a
  induction a with
  | nil =>
    intro b c h1 h2
    cases b with
    | nil => exact absurd h1 (by simp [ltB])
    | cons y ys =>
      cases c with
      | nil => exact absurd h2 (by simp [ltB])
      | cons z zs => rfl
  | cons x xs ih =>
    intro b c h1 h2
    cases b with
    | nil => exact absurd h1 (by simp [ltB])
    | cons y ys =>
      cases c with
      | nil => exact absurd h2 (by simp [ltB])
      | cons z zs =>
        simp only [ltB] at h1 h2 ⊢
        by_cases hxy : x < y
        · by_cases hyz : y < z
          · rw [if_pos (lt_trans hxy hyz)]
          · by_cases hzy : z < y
            · rw [if_neg hyz, if_pos hzy] at h2
              exact absurd h2 (by simp)
            · have heq : y = z := char_eq_of_not_lt hyz hzy
              rw [if_pos (heq ▸ hxy)]
        · by_cases hyx : y < x
          · rw [if_neg hxy, if_pos hyx] at h1
            exact absurd h1 (by simp)
          · have heq : x = y := char_eq_of_not_lt hxy hyx
            subst heq
            rw [if_neg hxy, if_neg hyx] at h1
            by_cases hyz : x < z
            · rw [if_pos hyz]
            · by_cases hzy : z < x
              · rw [if_neg hyz, if_pos hzy] at h2
                exact absurd h2 (by simp)
              · rw [if_neg hyz, if_neg hzy] at h2 ⊢
                exact ih ys zs h1 h2

theorem ltB_asymm : ∀ (a b : JSStr), ltB a b = true → ltB b a = false := by
  intro a
  induction a with
  | nil =>
    intro b h1
    cases b with
    | nil => exact absurd h1 (by simp [ltB])
    | cons y ys => rfl
  | cons x xs ih =>
    intro b h1
    cases b with
    | nil => exact absurd h1 (by simp [ltB])
    | cons y ys =>
      simp only [ltB] at h1 ⊢
      by_cases hxy : x < y
      · rw [if_neg (fun hc => absurd (lt_trans hxy hc) (lt_irrefl x)),
          if_pos hxy]
      · by_cases hyx : y < x
        · rw [if_neg hxy, if_pos hyx] at h1
          exact absurd h1 (by simp)
        · rw [if_neg hxy, if_neg hyx] at h1
          rw [if_neg hyx, if_neg hxy]
          exact ih ys h1

theorem ltB_connex : ∀ (a b : JSStr), ltB a b = false → ltB b a = false → a = b := by
  intro a
  induction a with
  | nil =>
    intro b h1 _
    cases b with
    | nil => rfl
    | cons y ys => exact absurd h1 (by simp [ltB])
  | cons x xs ih =>
    intro b h1 h2
    cases b with
    | nil => exact absurd h2 (by simp [ltB])
    | cons y ys =>
      simp only [ltB] at h1 h2
      by_cases hxy : x < y
      · rw [if_pos hxy] at h1
        exact absurd h1 (by simp)
      · by_cases hyx : y < x
        · rw [if_pos hyx] at h2
          exact absurd h2 (by simp)
        · have heq : x = y := char_eq_of_not_lt hxy hyx
          subst heq
          rw [if_neg hxy, if_neg hxy] at h1 h2
          rw [ih ys h1 h2]

theorem ltB_not_lt_trans {x y z : JSStr}
    (h1 : ltB y x = false) (h2 : ltB z y = false) : ltB z x = false := by
  cases hzx : ltB z x with
  | false => rfl
  | true =>
    by_cases hyz : ltB y z = true
    · rw [ltB_trans y z x hyz hzx] at h1
      exact Bool.noConfusion h1
    · have heq : z = y := ltB_connex z y h2 (Bool.not_eq_true _ ▸ hyz)
      rw [heq] at hzx
      rw [hzx] at h1
      exact Bool.noConfusion h1

theorem sortCmp_asc_le (keys : List JSStr) (a b : RecordV) :
    (sortCmp .asc keys a b ≤ 0) ↔
      ltB (orderKeyStr keys b) (orderKeyStr keys a) = false := by
  unfold sortCmp
  by_cases h1 : ltB (orderKeyStr keys a) (orderKeyStr keys b) = true
  · simp only [h1, if_true]
    have := ltB_asymm _ _ h1
    simp [this]
  · rw [if_neg (by simp [h1])]
    by_cases h2 : ltB (orderKeyStr keys b) (orderKeyStr keys a) = true
    · simp [h2]
    · simp only [Bool.not_eq_true] at h2
      simp [h2]

theorem sortCmp_desc_le (keys : List JSStr) (a b : RecordV) :
    (sortCmp .desc keys a b ≤ 0) ↔
      ltB (orderKeyStr keys a) (orderKeyStr keys b) = false := by
  unfold sortCmp
  by_cases h1 : ltB (orderKeyStr keys a) (orderKeyStr keys b) = true
  · simp [h1]
  · rw [if_neg (by simp [h1])]
    simp only [Bool.not_eq_true] at h1
    by_cases h2 : ltB (orderKeyStr keys b) (orderKeyStr keys a) = true
    · simp [h2, h1]
    · simp [h2, h1]

theorem sortCmp_le_total (order : Order) (keys : List JSStr) (a b : RecordV) :
    (sortCmp order keys a b ≤ 0) ∨ (sortCmp order keys b a ≤ 0) := by
  cases order with
  | asc =>
    rw [sortCmp_asc_le, sortCmp_asc_le]
    cases h1 : ltB (orderKeyStr keys b) (orderKeyStr keys a) with
    | false => exact Or.inl rfl
    | true => exact Or.inr (ltB_asymm _ _ h1)
  | desc =>
    rw [sortCmp_desc_le, sortCmp_desc_le]
    cases h1 : ltB (orderKeyStr keys a) (orderKeyStr keys b) with
    | false => exact Or.inl rfl
    | true => exact Or.inr (ltB_asymm _ _ h1)

theorem sortCmp_le_trans (order : Order) (keys : List JSStr) (a b c : RecordV)
    (h1 : sortCmp order keys a b ≤ 0) (h2 : sortCmp order keys b c ≤ 0) :
    sortCmp order keys a c ≤ 0 := by
  cases order with
  | asc =>
    rw [sortCmp_asc_le] at h1 h2 ⊢
    exact ltB_not_lt_trans h1 h2
  | desc =>
    rw [sortCmp_desc_le] at h1 h2 ⊢
    exact ltB_not_lt_trans h2 h1

theorem insertLe_mem {le : α → α → Bool} (x : α) :
    ∀ (l : List α) (z : α), z ∈ insertLe le x l → z = x ∨ z ∈ l := by
  intro l
  induction l with
  | nil =>
    intro z hz
    exact Or.inl (List.mem_singleton.mp hz)
  | cons y ys ih =>
    intro z hz
    simp only [insertLe] at hz
    by_cases hxy : le x y = true
    · rw [if_pos hxy] at hz
      rcases List.mem_cons.mp hz with h | h
      · exact Or.inl h
      · exact Or.inr h
    · rw [if_neg hxy] at hz
      rcases List.mem_cons.mp hz with h | h
      · exact Or.inr (h ▸ List.mem_cons_self y ys)
      · rcases ih z h with h' | h'
        · exact Or.inl h'
        · exact Or.inr (List.mem_cons_of_mem y h')

theorem insertLe_pairwise {le : α → α → Bool}
    (htot : ∀ a b, le a b = true ∨ le b a = true)
    (htrans : ∀ a b c, le a b = true → le b c = true → le a c = true) (x : α) :
    ∀ l : List α, l.Pairwise (fun a b => le a b = true) →
    (insertLe le x l).Pairwise (fun a b => le a b = true) := by
  intro l
  induction l with
  | nil => intro _; exact List.pairwise_singleton _ x
  | cons y ys ih =>
    intro hl
    simp only [insertLe]
    by_cases hxy : le x y = true
    · rw [if_pos hxy]
      refine List.Pairwise.cons ?_ hl
      intro z hz
      rcases List.mem_cons.mp hz with h | h
      · exact h ▸ hxy
      · exact htrans x y z hxy ((List.pairwise_cons.mp hl).1 z h)
    · rw [if_neg hxy]
      refine List.Pairwise.cons ?_ (ih (List.pairwise_cons.mp hl).2)
      intro z hz
      rcases insertLe_mem x ys z hz with h | h
      · rcases htot x y with h' | h'
        · exact absurd h' hxy
        · exact h ▸ h'
      · exact (List.pairwise_cons.mp hl).1 z h

theorem sortLe_pairwise {le : α → α → Bool}
    (htot : ∀ a b, le a b = true ∨ le b a = true)
    (htrans : ∀ a b c, le a b = true → le b c = true → le a c = true) :
    ∀ l : List α, (sortLe le l).Pairwise (fun a b => le a b = true) := by
  intro l
  induction l with
  | nil => exact List.Pairwise.nil
  | cons x xs ih => exact insertLe_pairwise htot htrans x _ ih

theorem insertLe_length {le : α → α → Bool} (x : α) :
    ∀ l : List α, (insertLe le x l).length = l.length + 1 := by
  intro l
  induction l with
  | nil => rfl
  | cons y ys ih =>
    simp only [insertLe]
    by_cases hxy : le x y = true
    · rw [if_pos hxy]
      rfl
    · rw [if_neg hxy]
      simp only [List.length_cons, ih]

theorem sortLe_length {le : α → α → Bool} :
    ∀ l : List α, (sortLe le l).length = l.length := by
  intro l
  induction l with
  | nil => rfl
  | cons x xs ih =>
    show (insertLe le x (sortLe le xs)).length = xs.length + 1
    rw [insertLe_length, ih]

theorem digitChar_range (k : Nat) :
    48 ≤ (digitChar k).toNat ∧ (digitChar k).toNat ≤ 57 := by
  unfold digitChar
  split <;> exact ⟨by decide, by decide⟩

theorem natCharsGo_head : ∀ (f n : Nat), n < f →
    ∃ c cs, natCharsGo f n = c :: cs ∧ 48 ≤ c.toNat ∧ c.toNat ≤ 57 := by
  intro f
  induction f with
  | zero => intro n hn; exact absurd hn (Nat.not_lt_zero n)
  | succ f ih =>
    intro n hn
    unfold natCharsGo
    by_cases h10 : n < 10
    · rw [if_pos h10]
      exact ⟨digitChar n, [], rfl, digitChar_range n⟩
    · rw [if_neg h10]
      have hdiv : n / 10 < f := by
        have h1 : n / 10 < n := Nat.div_lt_self (by omega) (by omega)
        omega
      obtain ⟨c, cs, heq, hc⟩ := ih (n / 10) hdiv
      exact ⟨c, cs ++ [digitChar (n % 10)], by rw [heq]; rfl, hc⟩

theorem stringify_head (v : Value) :
    ∃ c cs, jsonStringify v = c :: cs ∧ c.toNat < 0x9999 := by
  cases v with
  | vNull => exact ⟨'n', strC "ull", rfl, by decide⟩
  | vNum n =>
    show ∃ c cs, intChars n = c :: cs ∧ c.toNat < 0x9999
    unfold intChars
    by_cases hneg : n < 0
    · rw [if_pos hneg]
      exact ⟨'-', natChars n.natAbs, rfl, by decide⟩
    · rw [if_neg hneg]
      obtain ⟨c, cs, heq, h1, h2⟩ := natCharsGo_head (n.toNat + 1) n.toNat (Nat.lt_succ_self _)
      exact ⟨c, cs, heq, by omega⟩
  | vBool b =>
    cases b with
    | false => exact ⟨'f', strC "alse", rfl, by decide⟩
    | true => exact ⟨'t', strC "rue", rfl, by decide⟩
  | vStr s => exact ⟨'"', encStrBody s ++ ['"'], rfl, by decide⟩
  | vArr es => exact ⟨'[', encElems es ++ [']'], rfl, by decide⟩
  | vObj fs => exact ⟨'{', encFields fs ++ ['}'], rfl, by decide⟩
  | vMap en =>
    refine ⟨'{', _, rfl, by decide⟩
  | vSet es =>
    refine ⟨'{', _, rfl, by decide⟩

theorem stringify_lt_sentinel (v : Value) :
    ltB (jsonStringify v) highValueCharacters = true := by
  obtain ⟨c, cs, heq, hlt⟩ := stringify_head v
  rw [heq]
  have hh : highValueCharacters = '香' :: strC "香香香香香" := rfl
  rw [hh]
  simp only [ltB]
  rw [if_pos (show c < '香' by exact hlt)]

theorem orderKeyStr_single (k : JSStr) (r : RecordV) :
    orderKeyStr [k] r =
      match lookupF r k with
      | none => highValueCharacters
      | some .vNull => highValueCharacters
      | some v => jsonStringify v := by
  unfold orderKeyStr
  rw [if_neg (by simp)]
  simp only [List.foldl_cons, List.foldl_nil, List.nil_append]

theorem orderKeyStr_of_nullish {r : RecordV} {x : JSStr} (h : nullishField r x = true) :
    orderKeyStr [x] r = highValueCharacters := by
  rw [orderKeyStr_single]
  unfold nullishField at h
  cases hl : lookupF r x with
  | none => rfl
  | some v =>
    rw [hl] at h
    cases v <;> first | rfl | exact Bool.noConfusion h

theorem orderKeyStr_of_defined {r : RecordV} {x : JSStr} (h : nullishField r x = false) :
    ∃ v, lookupF r x = some v ∧ orderKeyStr [x] r = jsonStringify v := by
  rw [orderKeyStr_single]
  unfold nullishField at h
  cases hl : lookupF r x with
  | none => rw [hl] at h; exact Bool.noConfusion h
  | some v =>
    rw [hl] at h
    cases v <;> first | exact Bool.noConfusion h | exact ⟨_, rfl, rfl⟩

/-- C8 (confirmed): after `orderBy('asc','x')` every record whose `x`
field is null/undefined/missing appears after all records with a defined
`x` (once a nullish-`x` record appears, all later records are
nullish-`x` too); after `orderBy('desc','x')` such records appear before
all defined-`x` records; and the sentinel string assigned to nullish
ordering fields sorts after every normal encoded value. -/
theorem orderBy_null_placement (recs : List RecordV) (x : JSStr) (i j : Nat)
    (hij : i < j) (hj : j < recs.length) :
    (nullishField ((orderBy .asc [x] recs).getD i []) x = true →
      nullishField ((orderBy .asc [x] recs).getD j []) x = true) ∧
    (nullishField ((orderBy .desc [x] recs).getD j []) x = true →
      nullishField ((orderBy .desc [x] recs).getD i []) x = true) ∧
    (∀ v : Value, ltB (jsonStringify v) highValueCharacters = true) := by
  have hlen : ∀ order, (orderBy order [x] recs).length = recs.length := by
    intro order
    exact sortLe_length recs
  have hpair : ∀ order, (orderBy order [x] recs).Pairwise
      (fun a b => (sortCmp order [x] a b ≤ 0)) := by
    intro order
    have := @sortLe_pairwise _ (fun a b => decide (sortCmp order [x] a b ≤ 0))
      (fun a b => by
        rcases sortCmp_le_total order [x] a b with h | h
        · exact Or.inl (decide_eq_true h)
        · exact Or.inr (decide_eq_true h))
      (fun a b c h1 h2 => decide_eq_true
        (sortCmp_le_trans order [x] a b c (of_decide_eq_true h1) (of_decide_eq_true h2)))
      recs
    exact this.imp (fun h => of_decide_eq_true h)
  refine ⟨?_, ?_, stringify_lt_sentinel⟩
  · intro hni
    have hj' : j < (orderBy .asc [x] recs).length := by rw [hlen]; exact hj
    have hi' : i < (orderBy .asc [x] recs).length := lt_trans hij hj'
    rw [List.getD_eq_getElem _ _ hj']
    rw [List.getD_eq_getElem _ _ hi'] at hni
    by_contra hdef
    have hdef' : nullishField (orderBy .asc [x] recs)[j] x = false :=
      Bool.not_eq_true _ ▸ hdef
    have hle := (List.pairwise_iff_getElem.mp (hpair .asc)) i j hi' hj' hij
    rw [sortCmp_asc_le] at hle
    obtain ⟨v, _, hkey⟩ := orderKeyStr_of_defined hdef'
    rw [hkey, orderKeyStr_of_nullish hni, stringify_lt_sentinel v] at hle
    exact Bool.noConfusion hle
  · intro hnj
    have hj' : j < (orderBy .desc [x] recs).length := by rw [hlen]; exact hj
    have hi' : i < (orderBy .desc [x] recs).length := lt_trans hij hj'
    rw [List.getD_eq_getElem _ _ hj'] at hnj
    rw [List.getD_eq_getElem _ _ hi']
    by_contra hdef
    have hdef' : nullishField (orderBy .desc [x] recs)[i] x = false :=
      Bool.not_eq_true _ ▸ hdef
    have hle := (List.pairwise_iff_getElem.mp (hpair .desc)) i j hi' hj' hij
    rw [sortCmp_desc_le] at hle
    obtain ⟨v, _, hkey⟩ := orderKeyStr_of_defined hdef'
    rw [hkey, orderKeyStr_of_nullish hnj, stringify_lt_sentinel v] at hle
    exact Bool.noConfusion hle

/-- Record `{x:5}` for the C8 witness. -/
def r8a : RecordV := [(strC "x", .vNum 5)]

/-- Record `{y:1}` (no `x` field) for the C8 witness. -/
def r8b : RecordV := [(strC "y", .vNum 1)]

/-- Record `{x:null}` for the C8 witness. -/
def r8c : RecordV := [(strC "x", .vNull)]

/-- Witness for C8 at a concrete collection: ascending order pushes the
nullish-`x` records to the tail, descending order to the head. -/
theorem orderBy_null_placement_witness :
    nullishField ((orderBy .asc [strC "x"] [r8c, r8a, r8b]).getD 2 []) (strC "x") = true ∧
    nullishField ((orderBy .desc [strC "x"] [r8c, r8a, r8b]).getD 0 []) (strC "x") = true := by
  have h1 := (orderBy_null_placement [r8c, r8a, r8b] (strC "x") 1 2
    (by decide) (by decide)).1
  have h2 := (orderBy_null_placement [r8c, r8a, r8b] (strC "x") 0 1
    (by decide) (by decide)).2.1
  exact ⟨h1 rfl, h2 rfl⟩

/-! ### C5 — parseIndex/getIndex round trip -/

mutual
/-- A value is plain JSON when it contains no `Map` or `Set` anywhere
(those are what the reviver — absent from `parseIndex` — would have had
to reconstruct). -/
def plainV : Value → Bool
  | .vNull => true
  | .vNum _ => true
  | .vBool _ => true
  | .vStr _ => true
  | .vArr es => plainL es
  | .vObj fs => plainF fs
  | .vMap _ => false
  | .vSet _ => false

/-- Elementwise plainness. -/
def plainL : List Value → Bool
  | [] => true
  | v :: rest => plainV v && plainL rest

/-- Fieldwise plainness. -/
def plainF : List (JSStr × Value) → Bool
  | [] => true
  | (_, v) :: rest => plainV v && plainF rest
end

mutual
/-- Fuel needed by `parseV` to parse this value's encoding. -/
def needV : Value → Nat
  | .vArr es => 1 + needElems es
  | .vObj fs => 1 + needFields fs
  | _ => 1

/-- Fuel needed by `parseElems`. -/
def needElems : List Value → Nat
  | [] => 1
  | v :: vs => 1 + needV v + needElems vs

/-- Fuel needed by `parseObjFields`. -/
def needFields : List (JSStr × Value) → Nat
  | [] => 1
  | (_, v) :: fs => 1 + needV v + needFields fs
end

/-- The first character of the input is a decimal digit. -/
def digitHead : JSStr → Bool
  | [] => false
  | c :: _ => isDigitChar c

/-- Example store with a Map-valued index field `m`. -/
def c5mapstore : Store := mkStore ⟨some [strC "m"], none, none⟩

/-- The `{dataType:'Map', value:[]}` object that plain `JSON.parse`
produces from an encoded empty `Map`. -/
def c5mapParsed : Value :=
  .vObj [(strC "dataType", .vStr (strC "Map")), (strC "value", .vArr [])]

/-- C5 counterexample: for a `Map`-valued index field the round trip
fails — `parseIndex` applies plain `JSON.parse` WITHOUT the
`JsonHelper.reviver`, so `parseIndex(getIndex({m: new Map()}))` yields
the plain `{dataType:'Map', value:[]}` object rather than a value
structurally equal to the original `Map`. -/
theorem parseIndex_map_counterexample :
    DynamicDataStore.parseIndex c5mapstore
        (DynamicDataStore.getIndexR c5mapstore.cfg [(strC "m", .vMap [])]) =
      Except.ok [(strC "m", c5mapParsed)] ∧
    (Except.ok [(strC "m", c5mapParsed)] : Except JSStr RecordV) ≠
      Except.ok [(strC "m", .vMap [])] := by
  refine ⟨rfl, ?_⟩
  intro h
  have h1 : ([(strC "m", c5mapParsed)] : RecordV) = [(strC "m", .vMap [])] :=
    Except.ok.inj h
  injection h1 with h2 _
  injection h2 with _ h3
  exact Value.noConfusion h3

theorem charDigit_digitChar {k : Nat} (h : k < 10) : charDigit (digitChar k) = k := by
  interval_cases k <;> decide

theorem isDigitChar_digitChar (k : Nat) : isDigitChar (digitChar k) = true := by
  unfold digitChar
  split <;> decide

theorem natCharsGo_all_digits : ∀ (f n : Nat), (natCharsGo f n).all isDigitChar = true := by
  intro f
  induction f with
  | zero => intro n; rfl
  | succ f ih =>
    intro n
    unfold natCharsGo
    by_cases h10 : n < 10
    · rw [if_pos h10]
      simp [isDigitChar_digitChar]
    · rw [if_neg h10]
      rw [List.all_append]
      simp [ih, isDigitChar_digitChar]

theorem digitsVal_append_one (as : JSStr) (d : Char) :
    digitsVal (as ++ [d]) = digitsVal as * 10 + charDigit d := by
  unfold digitsVal
  rw [List.foldl_append]
  rfl

theorem digitsVal_natCharsGo : ∀ (f n : Nat), n < f → digitsVal (natCharsGo f n) = n := by
  intro f
  induction f with
  | zero => intro n hn; exact absurd hn (Nat.not_lt_zero n)
  | succ f ih =>
    intro n hn
    unfold natCharsGo
    by_cases h10 : n < 10
    · rw [if_pos h10]
      show digitsVal ([] ++ [digitChar n]) = n
      rw [digitsVal_append_one, charDigit_digitChar h10]
      simp [show digitsVal ([] : JSStr) = 0 from rfl]
    · rw [if_neg h10]
      rw [digitsVal_append_one, ih (n / 10) (by omega), charDigit_digitChar (Nat.mod_lt n (by omega))]
      omega

theorem digitsVal_natChars (n : Nat) : digitsVal (natChars n) = n :=
  digitsVal_natCharsGo (n + 1) n (Nat.lt_succ_self n)

theorem natChars_all_digits (n : Nat) : (natChars n).all isDigitChar = true :=
  natCharsGo_all_digits (n + 1) n

theorem digitSpan_append {ds rest : JSStr} (hds : ds.all isDigitChar = true)
    (hrest : digitHead rest = false) : digitSpan (ds ++ rest) = (ds, rest) := by
  induction ds with
  | nil =>
    cases rest with
    | nil => rfl
    | cons c r =>
      show digitSpan (c :: r) = ([], c :: r)
      unfold digitSpan
      rw [if_neg (by simp [show isDigitChar c = false from hrest])]
  | cons c cs ih =>
    have hall := hds
    rw [List.all_cons, Bool.and_eq_true] at hall
    show digitSpan (c :: (cs ++ rest)) = (c :: cs, rest)
    unfold digitSpan
    rw [if_pos hall.1, ih hall.2]

theorem parseDigits_natChars (n : Nat) {rest : JSStr} (hrest : digitHead rest = false) :
    parseDigits (natChars n ++ rest) = some (n, rest) := by
  unfold parseDigits
  rw [digitSpan_append (natChars_all_digits n) hrest]
  cases hnc : natChars n with
  | nil => exact absurd hnc (natChars_ne_nil n)
  | cons c cs =>
    show some (digitsVal (c :: cs), rest) = some (n, rest)
    rw [← hnc, digitsVal_natChars]

theorem hexVal_hexDigitChar {k : Nat} (h : k < 16) : hexVal (hexDigitChar k) = some k := by
  interval_cases k <;> decide

set_option maxHeartbeats 1000000 in
theorem psb_quote (T : JSStr) :
    parseStrBody ('\\' :: '"' :: T) = (parseStrBody T).map (fun pr => ('"' :: pr.1, pr.2)) := by
  conv_lhs => unfold parseStrBody
  rw [if_neg (by decide), if_pos rfl]
  rfl

set_option maxHeartbeats 1000000 in
theorem psb_backslash (T : JSStr) :
    parseStrBody ('\\' :: '\\' :: T) =
      (parseStrBody T).map (fun pr => ('\\' :: pr.1, pr.2)) := by
  conv_lhs => unfold parseStrBody
  rw [if_neg (by decide), if_pos rfl]
  rfl

set_option maxHeartbeats 1000000 in
theorem psb_n (T : JSStr) :
    parseStrBody ('\\' :: 'n' :: T) =
      (parseStrBody T).map (fun pr => ('\n' :: pr.1, pr.2)) := by
  conv_lhs => unfold parseStrBody
  rw [if_neg (by decide), if_pos rfl]
  rfl

set_option maxHeartbeats 1000000 in
theorem psb_r (T : JSStr) :
    parseStrBody ('\\' :: 'r' :: T) =
      (parseStrBody T).map (fun pr => ('\r' :: pr.1, pr.2)) := by
  conv_lhs => unfold parseStrBody
  rw [if_neg (by decide), if_pos rfl]
  rfl

set_option maxHeartbeats 1000000 in
theorem psb_t (T : JSStr) :
    parseStrBody ('\\' :: 't' :: T) =
      (parseStrBody T).map (fun pr => ('\t' :: pr.1, pr.2)) := by
  conv_lhs => unfold parseStrBody
  rw [if_neg (by decide), if_pos rfl]
  rfl

set_option maxHeartbeats 1000000 in
theorem psb_b (T : JSStr) :
    parseStrBody ('\\' :: 'b' :: T) =
      (parseStrBody T).map (fun pr => (Char.ofNat 8 :: pr.1, pr.2)) := by
  conv_lhs => unfold parseStrBody
  rw [if_neg (by decide), if_pos rfl]
  rfl

set_option maxHeartbeats 1000000 in
theorem psb_f (T : JSStr) :
    parseStrBody ('\\' :: 'f' :: T) =
      (parseStrBody T).map (fun pr => (Char.ofNat 12 :: pr.1, pr.2)) := by
  conv_lhs => unfold parseStrBody
  rw [if_neg (by decide), if_pos rfl]
  rfl

set_option maxHeartbeats 2000000 in
theorem psb_unicode {a b : Nat} (ha : a < 16) (hb : b < 16) (T : JSStr) :
    parseStrBody ('\\' :: 'u' :: '0' :: '0' :: hexDigitChar a :: hexDigitChar b :: T) =
      (parseStrBody T).map (fun pr => (Char.ofNat (a * 16 + b) :: pr.1, pr.2)) := by
  conv_lhs => unfold parseStrBody
  rw [if_neg (by decide), if_pos rfl]
  show (match hexVal '0', hexVal '0', hexVal (hexDigitChar a), hexVal (hexDigitChar b) with
    | some a', some b', some c', some d' =>
        (parseStrBody T).map
          (fun (pr : JSStr × JSStr) =>
            (Char.ofNat (((a' * 16 + b') * 16 + c') * 16 + d') :: pr.1, pr.2))
    | _, _, _, _ => none) = _
  rw [hexVal_hexDigitChar ha, hexVal_hexDigitChar hb]
  show (parseStrBody T).map
      (fun (pr : JSStr × JSStr) =>
        (Char.ofNat (((0 * 16 + 0) * 16 + a) * 16 + b) :: pr.1, pr.2)) = _
  norm_num

set_option maxHeartbeats 1000000 in
theorem psb_plain {c : Char} (h1 : c ≠ '"') (h2 : c ≠ '\\') (T : JSStr) :
    parseStrBody (c :: T) = (parseStrBody T).map (fun pr => (c :: pr.1, pr.2)) := by
  conv_lhs => unfold parseStrBody
  rw [if_neg h1, if_neg h2]

set_option maxHeartbeats 1000000 in
theorem psb_nil (rest : JSStr) : parseStrBody ('"' :: rest) = some ([], rest) := by
  conv_lhs => unfold parseStrBody
  rw [if_pos rfl]

theorem parseStrBody_round : ∀ (s rest : JSStr),
    parseStrBody (encStrBody s ++ '"' :: rest) = some (s, rest) := by
  intro s
  induction s with
  | nil => intro rest; exact psb_nil rest
  | cons c cs ih =>
    intro rest
    have hassoc : encStrBody (c :: cs) ++ '"' :: rest =
        escChar c ++ (encStrBody cs ++ '"' :: rest) := by
      show (escChar c ++ encStrBody cs) ++ '"' :: rest = _
      rw [List.append_assoc]
    rw [hassoc]
    unfold escChar
    by_cases h1 : c = '"'
    · subst h1
      rw [if_pos rfl]
      show parseStrBody ('\\' :: '"' :: (encStrBody cs ++ '"' :: rest)) = _
      rw [psb_quote, ih]
      rfl
    · rw [if_neg h1]
      by_cases h2 : c = '\\'
      · subst h2
        rw [if_pos rfl]
        show parseStrBody ('\\' :: '\\' :: (encStrBody cs ++ '"' :: rest)) = _
        rw [psb_backslash, ih]
        rfl
      · rw [if_neg h2]
        by_cases h3 : c = Char.ofNat 8
        · subst h3
          rw [if_pos rfl]
          show parseStrBody ('\\' :: 'b' :: (encStrBody cs ++ '"' :: rest)) = _
          rw [psb_b, ih]
          rfl
        · rw [if_neg h3]
          by_cases h4 : c = '\t'
          · subst h4
            rw [if_pos rfl]
            show parseStrBody ('\\' :: 't' :: (encStrBody cs ++ '"' :: rest)) = _
            rw [psb_t, ih]
            rfl
          · rw [if_neg h4]
            by_cases h5 : c = '\n'
            · subst h5
              rw [if_pos rfl]
              show parseStrBody ('\\' :: 'n' :: (encStrBody cs ++ '"' :: rest)) = _
              rw [psb_n, ih]
              rfl
            · rw [if_neg h5]
              by_cases h6 : c = Char.ofNat 12
              · subst h6
                rw [if_pos rfl]
                show parseStrBody ('\\' :: 'f' :: (encStrBody cs ++ '"' :: rest)) = _
                rw [psb_f, ih]
                rfl
              · rw [if_neg h6]
                by_cases h7 : c = '\r'
                · subst h7
                  rw [if_pos rfl]
                  show parseStrBody ('\\' :: 'r' :: (encStrBody cs ++ '"' :: rest)) = _
                  rw [psb_r, ih]
                  rfl
                · rw [if_neg h7]
                  by_cases h8 : c.toNat < 32
                  · rw [if_pos h8]
                    show parseStrBody ('\\' :: 'u' :: '0' :: '0' ::
                        hexDigitChar (c.toNat / 16) :: hexDigitChar (c.toNat % 16) ::
                        (encStrBody cs ++ '"' :: rest)) = _
                    rw [psb_unicode (by omega) (Nat.mod_lt _ (by omega)), ih]
                    show some (Char.ofNat (c.toNat / 16 * 16 + c.toNat % 16) :: cs, rest) = _
                    rw [show c.toNat / 16 * 16 + c.toNat % 16 = c.toNat by omega,
                      Char.ofNat_toNat]
                  · rw [if_neg h8]
                    show parseStrBody (c :: (encStrBody cs ++ '"' :: rest)) = _
                    rw [psb_plain h1 h2, ih]
                    rfl

/-! ### C5 — round trip of key derivation and key parsing -/

/- `jsonStringify` agrees with `jsonStringifyQV` after embedding a
value into the query-value type (the embedding used by `getIndex` on
stored records). -/

mutual
theorem stringifyQV_val : ∀ (v : Value), jsonStringifyQV (valToQVal v) = jsonStringify v
  | .vNull => rfl
  | .vNum _ => rfl
  | .vBool _ => rfl
  | .vStr _ => rfl
  | .vArr es => by
      show '[' :: encQElems (valToQValL es) ++ [']'] = '[' :: encElems es ++ [']']
      rw [encQElems_val es]
  | .vObj fs => by
      show '\x7b' :: encQFields (valToQValF fs) ++ ['\x7d'] = _
      rw [encQFields_val fs]
      rfl
  | .vMap en => by
      show '\x7b' :: (encStr (strC "dataType") ++ ':' :: encStr (strC "Map") ++
          ',' :: encStr (strC "value") ++ ':' :: '[' :: encQEntries (valToQValP en) ++ [']']) ++
            ['\x7d'] = _
      rw [encQEntries_val en]
      rfl
  | .vSet es => by
      show '\x7b' :: (encStr (strC "dataType") ++ ':' :: encStr (strC "Set") ++
          ',' :: encStr (strC "value") ++ ':' :: '[' :: encQSetEntries (valToQValL es) ++ [']']) ++
            ['\x7d'] = _
      rw [encQSetEntries_val es]
      rfl

theorem encQElems_val : ∀ (es : List Value), encQElems (valToQValL es) = encElems es
  | [] => rfl
  | [v] => by
      show encQElems [valToQVal v] = jsonStringify v
      show jsonStringifyQV (valToQVal v) = jsonStringify v
      exact stringifyQV_val v
  | v :: v2 :: rest => by
      show jsonStringifyQV (valToQVal v) ++ ',' :: encQElems (valToQValL (v2 :: rest)) =
        jsonStringify v ++ ',' :: encElems (v2 :: rest)
      rw [stringifyQV_val v, encQElems_val (v2 :: rest)]

theorem encQFields_val : ∀ (fs : List (JSStr × Value)), encQFields (valToQValF fs) = encFields fs
  | [] => rfl
  | [(k, v)] => by
      show encStr k ++ ':' :: jsonStringifyQV (valToQVal v) = encStr k ++ ':' :: jsonStringify v
      rw [stringifyQV_val v]
  | (k, v) :: p :: rest => by
      show encStr k ++ ':' :: jsonStringifyQV (valToQVal v) ++
          ',' :: encQFields (valToQValF (p :: rest)) = _
      rw [stringifyQV_val v, encQFields_val (p :: rest)]
      rfl

theorem encQEntries_val : ∀ (en : List (Value ×  Value)),
    encQEntries (valToQValP en) = encEntries en
  | [] => rfl
  | [(k, v)] => by
      show '[' :: jsonStringifyQV (valToQVal k) ++ ',' :: jsonStringifyQV (valToQVal v) ++ [']'] =
        _
      rw [stringifyQV_val k, stringifyQV_val v]
      rfl
  | (k, v) :: p :: rest => by
      show ('[' :: jsonStringifyQV (valToQVal k) ++ ',' :: jsonStringifyQV (valToQVal v) ++ [']'])
          ++ ',' :: encQEntries (valToQValP (p :: rest)) = _
      rw [stringifyQV_val k, stringifyQV_val v, encQEntries_val (p :: rest)]
      rfl

theorem encQSetEntries_val : ∀ (es : List Value),
    encQSetEntries (valToQValL es) = encSetEntries es
  | [] => rfl
  | [v] => by
      show '[' :: jsonStringifyQV (valToQVal v) ++ ',' :: jsonStringifyQV (valToQVal v) ++ [']'] =
        _
      rw [stringifyQV_val v]
      rfl
  | v :: v2 :: rest => by
      show ('[' :: jsonStringifyQV (valToQVal v) ++ ',' :: jsonStringifyQV (valToQVal v) ++ [']'])
          ++ ',' :: encQSetEntries (valToQValL (v2 :: rest)) = _
      rw [stringifyQV_val v, encQSetEntries_val (v2 :: rest)]
      rfl
end

mutual
theorem needV_le : ∀ (v : Value), plainV v = true → needV v ≤ 2 * (jsonStringify v).length
  | .vNull => fun _ => by simp [needV, jsonStringify, strC]
  | .vNum n => fun _ => by
      have h := intChars_ne_nil n
      have h2 : 1 ≤ (intChars n).length := by
        cases hc : intChars n with
        | nil => exact absurd hc h
        | cons c cs => simp
      simp only [needV, jsonStringify]
      omega
  | .vBool b => fun _ => by cases b <;> simp [needV, jsonStringify, boolChars, strC]
  | .vStr s => fun _ => by
      simp only [needV, jsonStringify, encStr]
      simp
      omega
  | .vArr es => fun hp => by
      have h := needElems_le es (by simpa [plainV] using hp)
      simp only [needV, jsonStringify]
      simp only [List.cons_append, List.length_cons, List.length_append]
      omega
  | .vObj fs => fun hp => by
      have h := needFields_le fs (by simpa [plainV] using hp)
      simp only [needV, jsonStringify]
      simp only [List.cons_append, List.length_cons, List.length_append]
      omega
  | .vMap _ => fun hp => by simp [plainV] at hp
  | .vSet _ => fun hp => by simp [plainV] at hp

theorem needElems_le : ∀ (es : List Value), plainL es = true →
    needElems es ≤ 2 * (encElems es).length + 2
  | [] => fun _ => by simp [needElems, encElems]
  | [v] => fun hp => by
      have h := needV_le v (by simpa [plainL] using hp)
      show needElems [v] ≤ 2 * (jsonStringify v).length + 2
      simp only [needElems]
      omega
  | v :: v2 :: rest => fun hp => by
      have hp1 : plainV v = true ∧ plainL (v2 :: rest) = true := by
        simpa [plainL, Bool.and_eq_true] using hp
      have h1 := needV_le v hp1.1
      have h2 := needElems_le (v2 :: rest) hp1.2
      simp only [needElems] at h2
      show needElems (v :: v2 :: rest) ≤
        2 * (jsonStringify v ++ ',' :: encElems (v2 :: rest)).length + 2
      simp only [needElems, List.length_append, List.length_cons]
      omega

theorem needFields_le : ∀ (fs : List (JSStr ×  Value)), plainF fs = true →
    needFields fs ≤ 2 * (encFields fs).length + 2
  | [] => fun _ => by simp [needFields, encFields]
  | [(k, v)] => fun hp => by
      have h := needV_le v (by simpa [plainF] using hp)
      show needFields [(k, v)] ≤ 2 * (encStr k ++ ':' :: jsonStringify v).length + 2
      simp only [needFields, List.length_append, List.length_cons]
      omega
  | (k, v) :: p :: rest => fun hp => by
      have hp1 : plainV v = true ∧ plainF (p :: rest) = true := by
        simpa [plainF, Bool.and_eq_true] using hp
      have h1 := needV_le v hp1.1
      have h2 := needFields_le (p :: rest) hp1.2
      obtain ⟨k2, v2⟩ := p
      simp only [needFields] at h2
      show needFields ((k, v) :: (k2, v2) :: rest) ≤
        2 * (encStr k ++ ':' :: jsonStringify v ++ ',' :: encFields ((k2, v2) :: rest)).length + 2
      simp only [needFields, List.length_append, List.length_cons]
      omega
end

theorem needV_pos (v : Value) : 1 ≤ needV v := by
  cases v <;> simp [needV]

theorem needElems_pos (es : List Value) : 1 ≤ needElems es := by
  cases es with
  | nil => simp [needElems]
  | cons v rest => simp [needElems]; omega

theorem needFields_pos (fs : List (JSStr ×  Value)) : 1 ≤ needFields fs := by
  cases fs with
  | nil => simp [needFields]
  | cons p rest =>
    obtain ⟨k, v⟩ := p
    simp [needFields]
    omega

/-- The first character of any canonical encoding is never `]`, `\x7d`
or `,` (it is a letter, quote, bracket, brace, minus or digit). -/
theorem stringify_head_ne (v : Value) :
    ∃ c cs, jsonStringify v = c :: cs ∧ c ≠ ']' ∧ c ≠ '\x7d' ∧ c ≠ ',' := by
  cases v with
  | vNull => exact ⟨'n', strC "ull", rfl, by decide, by decide, by decide⟩
  | vNum n =>
    show ∃ c cs, intChars n = c :: cs ∧ _
    unfold intChars
    by_cases hneg : n < 0
    · rw [if_pos hneg]
      exact ⟨'-', natChars n.natAbs, rfl, by decide, by decide, by decide⟩
    · rw [if_neg hneg]
      obtain ⟨c, cs, heq, h1, h2⟩ := natCharsGo_head (n.toNat + 1) n.toNat (Nat.lt_succ_self _)
      refine ⟨c, cs, heq, ?_, ?_, ?_⟩
      · intro hc; subst hc; exact absurd h2 (by decide)
      · intro hc; subst hc; exact absurd h2 (by decide)
      · intro hc; subst hc; exact absurd h1 (by decide)
  | vBool b =>
    cases b with
    | false => exact ⟨'f', strC "alse", rfl, by decide, by decide, by decide⟩
    | true => exact ⟨'t', strC "rue", rfl, by decide, by decide, by decide⟩
  | vStr s => exact ⟨'"', encStrBody s ++ ['"'], rfl, by decide, by decide, by decide⟩
  | vArr es => exact ⟨'[', encElems es ++ [']'], rfl, by decide, by decide, by decide⟩
  | vObj fs => exact ⟨'\x7b', encFields fs ++ ['\x7d'], rfl, by decide, by decide, by decide⟩
  | vMap en => exact ⟨'\x7b', _, rfl, by decide, by decide, by decide⟩
  | vSet es => exact ⟨'\x7b', _, rfl, by decide, by decide, by decide⟩

/-- A non-empty element list's encoding starts with its first element's
encoding. -/
theorem encElems_cons_ex (e : Value) (es : List Value) :
    ∃ X, encElems (e :: es) = jsonStringify e ++ X := by
  cases es with
  | nil => exact ⟨[], (List.append_nil _).symm⟩
  | cons e2 rest => exact ⟨',' :: encElems (e2 :: rest), rfl⟩

/-- A non-empty field list's encoding starts with a double quote. -/
theorem encFields_cons_ex (k : JSStr) (v : Value) (fs : List (JSStr ×  Value)) :
    ∃ X, encFields ((k, v) :: fs) = '"' :: X := by
  cases fs with
  | nil => exact ⟨(encStrBody k ++ ['"']) ++ ':' :: jsonStringify v, rfl⟩
  | cons p rest =>
    exact ⟨(encStrBody k ++ ['"']) ++ ':' :: jsonStringify v ++ ',' :: encFields (p :: rest),
      rfl⟩

set_option maxHeartbeats 1000000 in
theorem pv_null (f : Nat) (T : JSStr) :
    parseV (f + 1) ('n' :: 'u' :: 'l' :: 'l' :: T) = some (.vNull, T) := by
  conv_lhs => unfold parseV
  rfl

set_option maxHeartbeats 1000000 in
theorem pv_true (f : Nat) (T : JSStr) :
    parseV (f + 1) ('t' :: 'r' :: 'u' :: 'e' :: T) = some (.vBool true, T) := by
  conv_lhs => unfold parseV
  rfl

set_option maxHeartbeats 1000000 in
theorem pv_false (f : Nat) (T : JSStr) :
    parseV (f + 1) ('f' :: 'a' :: 'l' :: 's' :: 'e' :: T) = some (.vBool false, T) := by
  conv_lhs => unfold parseV
  rfl

set_option maxHeartbeats 1000000 in
theorem pv_str (f : Nat) (T : JSStr) :
    parseV (f + 1) ('"' :: T) = (parseStrBody T).map (fun pr => (.vStr pr.1, pr.2)) := by
  conv_lhs => unfold parseV
  rfl

set_option maxHeartbeats 1000000 in
theorem pv_arr (f : Nat) (T : JSStr) :
    parseV (f + 1) ('[' :: T) =
      (if headIs ']' T then some (.vArr [], T.tail)
       else (parseElems f T).map (fun pr => (.vArr pr.1, pr.2))) := by
  conv_lhs => unfold parseV
  rfl

set_option maxHeartbeats 1000000 in
theorem pv_obj (f : Nat) (T : JSStr) :
    parseV (f + 1) ('\x7b' :: T) =
      (if headIs '\x7d' T then some (.vObj [], T.tail)
       else (parseObjFields f T).map (fun pr => (.vObj pr.1, pr.2))) := by
  conv_lhs => unfold parseV
  rfl

set_option maxHeartbeats 1000000 in
theorem pv_neg (f : Nat) (T : JSStr) :
    parseV (f + 1) ('-' :: T) =
      (parseDigits T).map (fun pr => (.vNum (-(pr.1 : Int)), pr.2)) := by
  conv_lhs => unfold parseV
  rfl

set_option maxHeartbeats 1000000 in
theorem pv_digit {c : Char} (hc : isDigitChar c = true) (f : Nat) (T : JSStr) :
    parseV (f + 1) (c :: T) =
      (parseDigits (c :: T)).map (fun pr => (.vNum (pr.1 : Int), pr.2)) := by
  have hn : c ≠ 'n' := by intro h; rw [h] at hc; exact absurd hc (by decide)
  have ht : c ≠ 't' := by intro h; rw [h] at hc; exact absurd hc (by decide)
  have hf : c ≠ 'f' := by intro h; rw [h] at hc; exact absurd hc (by decide)
  have hq : c ≠ '"' := by intro h; rw [h] at hc; exact absurd hc (by decide)
  have hbk : c ≠ '[' := by intro h; rw [h] at hc; exact absurd hc (by decide)
  have hbc : c ≠ '\x7b' := by intro h; rw [h] at hc; exact absurd hc (by decide)
  have hm : c ≠ '-' := by intro h; rw [h] at hc; exact absurd hc (by decide)
  conv_lhs => unfold parseV
  rw [if_neg hn, if_neg ht, if_neg hf, if_neg hq, if_neg hbk, if_neg hbc, if_neg hm, if_pos hc]

set_option maxHeartbeats 1000000 in
theorem pe_one (f : Nat) (s : JSStr) (v : Value) (r2 : JSStr)
    (hv : parseV f s = some (v, ']' :: r2)) : parseElems (f + 1) s = some ([v], r2) := by
  conv_lhs => unfold parseElems
  simp only [hv]

set_option maxHeartbeats 1000000 in
theorem pe_cons (f : Nat) (s : JSStr) (v : Value) (r2 : JSStr) (vs : List Value) (r3 : JSStr)
    (hv : parseV f s = some (v, ',' :: r2))
    (hrec : parseElems f r2 = some (vs, r3)) : parseElems (f + 1) s = some (v :: vs, r3) := by
  conv_lhs => unfold parseElems
  simp only [hv, hrec]

set_option maxHeartbeats 1000000 in
theorem pof_one (f : Nat) (body : JSStr) (k : JSStr) (r1 : JSStr) (v : Value) (r2 : JSStr)
    (hs : parseStrBody body = some (k, ':' :: r1))
    (hv : parseV f r1 = some (v, '\x7d' :: r2)) :
    parseObjFields (f + 1) ('"' :: body) = some ([(k, v)], r2) := by
  conv_lhs => unfold parseObjFields
  rw [if_pos rfl]
  simp only [hs, hv]

set_option maxHeartbeats 1000000 in
theorem pof_cons (f : Nat) (body : JSStr) (k : JSStr) (r1 : JSStr) (v : Value) (r2 : JSStr)
    (fs : List (JSStr ×  Value)) (r3 : JSStr)
    (hs : parseStrBody body = some (k, ':' :: r1))
    (hv : parseV f r1 = some (v, ',' :: r2))
    (hrec : parseObjFields f r2 = some (fs, r3)) :
    parseObjFields (f + 1) ('"' :: body) = some ((k, v) :: fs, r3) := by
  conv_lhs => unfold parseObjFields
  rw [if_pos rfl]
  simp only [hs, hv, hrec]

/-- Round trip of the canonical encoder and the fuelled parser, for
plain (`Map`/`Set`-free) values: with sufficient fuel, parsing the
encoding followed by a non-digit-initial remainder yields the value and
the remainder (mutually for values, array elements and object
fields). -/
theorem parse_round_all : ∀ (fuel : Nat),
    (∀ (v : Value) (rest : JSStr), plainV v = true → needV v ≤ fuel →
      digitHead rest = false → parseV fuel (jsonStringify v ++ rest) = some (v, rest)) ∧
    (∀ (es : List Value) (rest : JSStr), es ≠ [] → plainL es = true → needElems es ≤ fuel →
      digitHead rest = false →
      parseElems fuel (encElems es ++ ']' :: rest) = some (es, rest)) ∧
    (∀ (fs : List (JSStr × Value)) (rest : JSStr), fs ≠ [] → plainF fs = true →
      needFields fs ≤ fuel → digitHead rest = false →
      parseObjFields fuel (encFields fs ++ '\x7d' :: rest) = some (fs, rest)) := by
  intro fuel
  induction fuel with
  | zero =>
    refine ⟨fun v _ _ hn _ => ?_, fun es _ _ _ hn _ => ?_, fun fs _ _ _ hn _ => ?_⟩
    · exact absurd hn (by have := needV_pos v; omega)
    · exact absurd hn (by have := needElems_pos es; omega)
    · exact absurd hn (by have := needFields_pos fs; omega)
  | succ f ih =>
    obtain ⟨ihV, ihE, ihF⟩ := ih
    refine ⟨?_, ?_, ?_⟩
    · -- parseV
      intro v rest hp hn hd
      cases v with
      | vNull => exact pv_null f rest
      | vBool b =>
        cases b with
        | true => exact pv_true f rest
        | false => exact pv_false f rest
      | vStr s =>
        have h1 : jsonStringify (.vStr s) ++ rest = '"' :: (encStrBody s ++ '"' :: rest) := by
          show (('"' :: encStrBody s) ++ ['"']) ++ rest = _
          simp [List.append_assoc]
        rw [h1, pv_str, parseStrBody_round]
        rfl
      | vNum n =>
        show parseV (f + 1) (intChars n ++ rest) = some (.vNum n, rest)
        unfold intChars
        by_cases hneg : n < 0
        · rw [if_pos hneg]
          show parseV (f + 1) ('-' :: (natChars n.natAbs ++ rest)) = some (.vNum n, rest)
          rw [pv_neg, parseDigits_natChars _ hd]
          show some (Value.vNum (-(n.natAbs : Int)), rest) = some (Value.vNum n, rest)
          have h2 : (-(n.natAbs : Int)) = n := by omega
          rw [h2]
        · rw [if_neg hneg]
          have hall := natChars_all_digits n.toNat
          cases hnc : natChars n.toNat with
          | nil => exact absurd hnc (natChars_ne_nil _)
          | cons c cs =>
            rw [hnc] at hall
            rw [List.all_cons, Bool.and_eq_true] at hall
            show parseV (f + 1) ((c :: cs) ++ rest) = some (.vNum n, rest)
            rw [show (c :: cs) ++ rest = c :: (cs ++ rest) from rfl, pv_digit hall.1]
            rw [show c :: (cs ++ rest) = (c :: cs) ++ rest from rfl, ← hnc,
              parseDigits_natChars _ hd]
            show some (Value.vNum ((n.toNat : Nat) : Int), rest) = some (Value.vNum n, rest)
            have h2 : ((n.toNat : Nat) : Int) = n := by omega
            rw [h2]
      | vArr es =>
        have hpl : plainL es = true := hp
        have hne2 : needElems es ≤ f := by
          simp only [needV] at hn
          omega
        cases es with
        | nil =>
          show parseV (f + 1) ('[' :: ']' :: rest) = some (.vArr [], rest)
          rw [pv_arr]
          rfl
        | cons e es2 =>
          have h1 : jsonStringify (.vArr (e :: es2)) ++ rest =
              '[' :: (encElems (e :: es2) ++ ']' :: rest) := by
            show (('[' :: encElems (e :: es2)) ++ [']']) ++ rest = _
            simp [List.append_assoc]
          obtain ⟨X, hX⟩ := encElems_cons_ex e es2
          obtain ⟨c, cs, hec, hc1, _, _⟩ := stringify_head_ne e
          have hfalse : headIs ']' (encElems (e :: es2) ++ ']' :: rest) = false := by
            rw [hX, hec]
            show (c == ']') = false
            exact beq_eq_false_iff_ne.mpr hc1
          rw [h1, pv_arr, if_neg (by simp [hfalse]),
            ihE (e :: es2) rest (by simp) hpl hne2 hd]
          rfl
      | vObj fs =>
        have hpf : plainF fs = true := hp
        have hnf : needFields fs ≤ f := by
          simp only [needV] at hn
          omega
        cases fs with
        | nil =>
          show parseV (f + 1) ('\x7b' :: '\x7d' :: rest) = some (.vObj [], rest)
          rw [pv_obj]
          rfl
        | cons p fs2 =>
          obtain ⟨k, v⟩ := p
          have h1 : jsonStringify (.vObj ((k, v) :: fs2)) ++ rest =
              '\x7b' :: (encFields ((k, v) :: fs2) ++ '\x7d' :: rest) := by
            show (('\x7b' :: encFields ((k, v) :: fs2)) ++ ['\x7d']) ++ rest = _
            simp [List.append_assoc]
          obtain ⟨X, hX⟩ := encFields_cons_ex k v fs2
          have hfalse : headIs '\x7d' (encFields ((k, v) :: fs2) ++ '\x7d' :: rest) = false := by
            rw [hX]
            rfl
          rw [h1, pv_obj, if_neg (by simp [hfalse]),
            ihF ((k, v) :: fs2) rest (by simp) hpf hnf hd]
          rfl
      | vMap en => exact absurd hp (by simp [plainV])
      | vSet es => exact absurd hp (by simp [plainV])
    · -- parseElems
      intro es rest hne hp hn hd
      cases es with
      | nil => exact absurd rfl hne
      | cons e es2 =>
        have hp2 : plainV e = true ∧ plainL es2 = true := by
          simpa [plainL, Bool.and_eq_true] using hp
        have hnv : needV e ≤ f := by
          have := needElems_pos es2
          have h3 : needElems (e :: es2) = 1 + needV e + needElems es2 := rfl
          omega
        cases es2 with
        | nil =>
          show parseElems (f + 1) (jsonStringify e ++ ']' :: rest) = some ([e], rest)
          exact pe_one f _ e rest (ihV e (']' :: rest) hp2.1 hnv rfl)
        | cons e2 es3 =>
          have hne2 : needElems (e2 :: es3) ≤ f := by
            have := needV_pos e
            have h3 : needElems (e :: e2 :: es3) = 1 + needV e + needElems (e2 :: es3) := rfl
            omega
          have h1 : encElems (e :: e2 :: es3) ++ ']' :: rest =
              jsonStringify e ++ (',' :: (encElems (e2 :: es3) ++ ']' :: rest)) := by
            show (jsonStringify e ++ ',' :: encElems (e2 :: es3)) ++ ']' :: rest = _
            simp [List.append_assoc]
          rw [h1]
          exact pe_cons f _ e _ (e2 :: es3) rest
            (ihV e _ hp2.1 hnv rfl)
            (ihE (e2 :: es3) rest (by simp) hp2.2 hne2 hd)
    · -- parseObjFields
      intro fs rest hne hp hn hd
      cases fs with
      | nil => exact absurd rfl hne
      | cons p fs2 =>
        obtain ⟨k, v⟩ := p
        have hp2 : plainV v = true ∧ plainF fs2 = true := by
          simpa [plainF, Bool.and_eq_true] using hp
        have hnv : needV v ≤ f := by
          have := needFields_pos fs2
          have h3 : needFields ((k, v) :: fs2) = 1 + needV v + needFields fs2 := rfl
          omega
        cases fs2 with
        | nil =>
          have h1 : encFields [(k, v)] ++ '\x7d' :: rest =
              '"' :: (encStrBody k ++ '"' :: (':' :: (jsonStringify v ++ '\x7d' :: rest))) := by
            show ((('"' :: encStrBody k) ++ ['"']) ++ ':' :: jsonStringify v) ++ '\x7d' :: rest = _
            simp [List.append_assoc]
          rw [h1]
          exact pof_one f _ k _ v rest
            (parseStrBody_round k _)
            (ihV v ('\x7d' :: rest) hp2.1 hnv rfl)
        | cons p2 fs3 =>
          have hnf2 : needFields (p2 :: fs3) ≤ f := by
            have := needV_pos v
            have h3 : needFields ((k, v) :: p2 :: fs3) =
              1 + needV v + needFields (p2 :: fs3) := rfl
            omega
          have h1 : encFields ((k, v) :: p2 :: fs3) ++ '\x7d' :: rest =
              '"' :: (encStrBody k ++ '"' :: (':' ::
                (jsonStringify v ++ (',' :: (encFields (p2 :: fs3) ++ '\x7d' :: rest))))) := by
            show ((('"' :: encStrBody k) ++ ['"']) ++
              ':' :: jsonStringify v ++ ',' :: encFields (p2 :: fs3)) ++ '\x7d' :: rest = _
            simp [List.append_assoc]
          rw [h1]
          exact pof_cons f _ k _ v _ (p2 :: fs3) rest
            (parseStrBody_round k _)
            (ihV v _ hp2.1 hnv rfl)
            (ihF (p2 :: fs3) rest (by simp) hp2.2 hnf2 hd)

/-- `JSON.parse` inverts `JSON.stringify` on plain values (the whole
input is the encoding; `jsonParse`'s fuel suffices by `needV_le`). -/
theorem jsonParse_stringify (v : Value) (hp : plainV v = true) :
    jsonParse (jsonStringify v) = some v := by
  have hfuel : needV v ≤ 2 * (jsonStringify v).length + 2 := by
    have := needV_le v hp
    omega
  have h := (parse_round_all (2 * (jsonStringify v).length + 2)).1 v [] hp hfuel rfl
  rw [List.append_nil] at h
  unfold jsonParse
  rw [h]

theorem split1_not_mem (d0 : Char) : ∀ (p : JSStr), d0 ∉ p → split1 [d0] p = none := by
  intro p
  induction p with
  | nil => intro _; rfl
  | cons c r ih =>
    intro h
    have hdc : (d0 == c) = false :=
      beq_eq_false_iff_ne.mpr (fun hh => h (by rw [hh]; exact List.mem_cons_self c r))
    unfold split1
    rw [if_neg (by simp [leadsWith, hdc])]
    rw [ih (fun hm => h (List.mem_cons_of_mem c hm))]

theorem split1_at (d0 : Char) : ∀ (p t : JSStr), d0 ∉ p →
    split1 [d0] (p ++ d0 :: t) = some (p, t) := by
  intro p
  induction p with
  | nil =>
    intro t _
    show split1 [d0] (d0 :: t) = some ([], t)
    unfold split1
    rw [if_pos (by simp [leadsWith])]
    rfl
  | cons c r ih =>
    intro t h
    have hdc : (d0 == c) = false :=
      beq_eq_false_iff_ne.mpr (fun hh => h (by rw [hh]; exact List.mem_cons_self c r))
    show split1 [d0] (c :: (r ++ d0 :: t)) = some (c :: r, t)
    unfold split1
    rw [if_neg (by simp [leadsWith, hdc])]
    rw [ih t (fun hm => h (List.mem_cons_of_mem c hm))]

theorem joinD_length_ge (d0 : Char) : ∀ (segs : List JSStr),
    segs.length ≤ (joinD [d0] segs).length + 1 := by
  intro segs
  induction segs with
  | nil => simp [joinD]
  | cons x xs ih =>
    cases xs with
    | nil => simp [joinD]
    | cons y rest =>
      have h1 : joinD [d0] (x :: y :: rest) = (x ++ [d0]) ++ joinD [d0] (y :: rest) := rfl
      rw [h1]
      simp only [List.length_cons, List.length_append, List.length_singleton] at *
      omega

theorem splitGo_joinD (d0 : Char) : ∀ (segs : List JSStr) (f : Nat), segs ≠ [] →
    (∀ p ∈ segs, d0 ∉ p) → segs.length ≤ f + 1 →
    splitGo [d0] f (joinD [d0] segs) = segs := by
  intro segs
  induction segs with
  | nil => intro f hne _ _; exact absurd rfl hne
  | cons x xs ih =>
    intro f _ hmem hlen
    cases xs with
    | nil =>
      show splitGo [d0] f x = [x]
      cases f with
      | zero => rfl
      | succ f2 =>
        conv_lhs => unfold splitGo
        simp only [split1_not_mem d0 x (hmem x (List.mem_cons_self x []))]
    | cons y rest =>
      cases f with
      | zero =>
        exfalso
        simp only [List.length_cons] at hlen
        omega
      | succ f2 =>
        have h1 : joinD [d0] (x :: y :: rest) = x ++ d0 :: joinD [d0] (y :: rest) := by
          show (x ++ [d0]) ++ joinD [d0] (y :: rest) = _
          simp [List.append_assoc]
        rw [h1]
        conv_lhs => unfold splitGo
        simp only [split1_at d0 x _ (hmem x (List.mem_cons_self x _))]
        rw [ih f2 (by simp) (fun p hp => hmem p (List.mem_cons_of_mem x hp))
          (by simp only [List.length_cons] at hlen ⊢; omega)]

theorem splitOn_joinD (d0 : Char) (segs : List JSStr) (hne : segs ≠ [])
    (hmem : ∀ p ∈ segs, d0 ∉ p) : splitOn [d0] (joinD [d0] segs) = segs := by
  show splitGo [d0] ((joinD [d0] segs).length + 1) (joinD [d0] segs) = segs
  exact splitGo_joinD d0 segs _ hne hmem (by have := joinD_length_ge d0 segs; omega)

/-- Field lookup on the query built from a record is field lookup on the
record, embedded. -/
theorem getFieldQ_queryOfRecord (P : RecordV) (k : JSStr) :
    getFieldQ (queryOfRecord P) k = (lookupF P k).map valToQVal := by
  induction P with
  | nil => rfl
  | cons p rest ih =>
    obtain ⟨k0, v0⟩ := p
    show getFieldQ ((k0, valToQVal v0) :: queryOfRecord rest) k = _
    by_cases h : (k0 == k) = true
    · simp [getFieldQ, lookupF, List.find?_cons, h]
    · have h2 : (k0 == k) = false := by simpa using h
      simp only [getFieldQ, lookupF, List.find?_cons, h2]
      exact ih

/-- A record with plain non-null values at every index key passes
`hasAllIndexProperties`. -/
theorem hasAll_of_values (inds : List JSStr) (d : JSStr) (P : RecordV)
    (hne : inds ≠ [])
    (hvals : ∀ k ∈ inds, ∃ v, lookupF P k = some v ∧ v ≠ Value.vNull) :
    DynamicDataStore.hasAllIndexProperties ⟨inds, d⟩ (queryOfRecord P) = true := by
  unfold DynamicDataStore.hasAllIndexProperties
  rw [if_neg (by simpa [List.isEmpty_iff] using hne)]
  rw [List.all_eq_true]
  intro k hk
  obtain ⟨v, hv, hvn⟩ := hvals k hk
  show (match getFieldQ (queryOfRecord P) k with
    | none => false
    | some QVal.qNull => false
    | some (QVal.qMatcher _) => false
    | some _ => true) = true
  rw [getFieldQ_queryOfRecord, hv]
  cases v with
  | vNull => exact absurd rfl hvn
  | vNum _ => rfl
  | vBool _ => rfl
  | vStr _ => rfl
  | vArr _ => rfl
  | vObj _ => rfl
  | vMap _ => rfl
  | vSet _ => rfl

/-- On such a record `getIndex` is the join of the per-index-field
canonical encodings. -/
theorem getIndex_of_values (inds : List JSStr) (d : JSStr) (P : RecordV)
    (hne : inds ≠ [])
    (hvals : ∀ k ∈ inds, ∃ v, lookupF P k = some v ∧ v ≠ Value.vNull) :
    DynamicDataStore.getIndex ⟨inds, d⟩ (queryOfRecord P) =
      joinD d (inds.map (fun k => jsonStringify ((lookupF P k).getD Value.vNull))) := by
  unfold DynamicDataStore.getIndex
  rw [if_pos (hasAll_of_values inds d P hne hvals)]
  show joinD d _ = joinD d _
  congr 1
  apply List.map_congr_left
  intro k hk
  obtain ⟨v, hv, _⟩ := hvals k hk
  rw [getFieldQ_queryOfRecord, hv]
  show jsonStringifyQV (valToQVal v) = jsonStringify ((some v).getD Value.vNull)
  rw [stringifyQV_val]
  rfl

theorem parseIndex_fold (P : RecordV) : ∀ (ks : List JSStr),
    (∀ k ∈ ks, ∃ v, lookupF P k = some v ∧ plainV v = true) →
    ∀ (acc : RecordV),
    ((ks.zip (ks.map (fun k => jsonStringify ((lookupF P k).getD Value.vNull)))).foldlM
      (fun acc kv =>
        match jsonParse kv.2 with
        | some v => Except.ok (setField acc kv.1 v)
        | none => Except.error (strC "invalid JSON in index segment")) acc
      : Except JSStr RecordV)
      = Except.ok (ks.foldl (fun a k => setField a k ((lookupF P k).getD Value.vNull)) acc) := by
  intro ks
  induction ks with
  | nil => intro _ acc; rfl
  | cons k ks2 ih =>
    intro hvals acc
    obtain ⟨v, hv, hp⟩ := hvals k (List.mem_cons_self k ks2)
    show ((((k, jsonStringify ((lookupF P k).getD Value.vNull)) ::
        ks2.zip (ks2.map (fun k => jsonStringify ((lookupF P k).getD Value.vNull)))).foldlM
        _ acc : Except JSStr RecordV)) = _
    rw [List.foldlM_cons]
    rw [hv]
    show (match jsonParse (jsonStringify v) with
      | some v => Except.ok (setField acc k v)
      | none => Except.error (strC "invalid JSON in index segment")) >>= _ = _
    rw [jsonParse_stringify v hp]
    show (ks2.zip (ks2.map (fun k => jsonStringify ((lookupF P k).getD Value.vNull)))).foldlM
        _ (setField acc k v) = _
    rw [ih (fun k2 hk2 => hvals k2 (List.mem_cons_of_mem k hk2)) (setField acc k v)]
    rw [List.foldl_cons, hv]
    rfl

/-- C5: the derived key round-trips back through `parseIndex` — but
only up to what plain `JSON.parse` (no reviver) and the delimiter
splitting can reconstruct: for a store whose delimiter is a single
character and a partial record `P` whose every configured index field
holds a plain (`Map`/`Set`-free), non-null, non-matcher value whose
encoding does not contain the delimiter character,
`parseIndex(getIndex(P))` succeeds and returns exactly `P` restricted
to the index fields (each index key assigned its value from `P`, in
configuration order). -/
theorem parseIndex_getIndex_roundtrip
    (inds : List JSStr) (d0 : Char) (tbl : List (JSStr × RecordV)) (P : RecordV)
    (hne : inds ≠ [])
    (hvals : ∀ k ∈ inds, ∃ v, lookupF P k = some v ∧ v ≠ Value.vNull ∧ plainV v = true ∧
      d0 ∉ jsonStringify v) :
    DynamicDataStore.parseIndex ⟨⟨inds, [d0]⟩, tbl⟩
        (DynamicDataStore.getIndexR ⟨inds, [d0]⟩ P) =
      Except.ok (inds.foldl
        (fun acc k => setField acc k ((lookupF P k).getD Value.vNull)) []) := by
  have hvals2 : ∀ k ∈ inds, ∃ v, lookupF P k = some v ∧ v ≠ Value.vNull :=
    fun k hk => ((hvals k hk).imp (fun v hv => ⟨hv.1, hv.2.1⟩))
  unfold DynamicDataStore.getIndexR
  rw [getIndex_of_values inds [d0] P hne hvals2]
  unfold DynamicDataStore.parseIndex
  dsimp only
  have hsegs : splitOn [d0]
      (joinD [d0] (inds.map (fun k => jsonStringify ((lookupF P k).getD Value.vNull)))) =
      inds.map (fun k => jsonStringify ((lookupF P k).getD Value.vNull)) := by
    apply splitOn_joinD
    · intro hc
      exact hne (List.map_eq_nil_iff.mp hc)
    · intro p hp
      obtain ⟨k, hk, hpk⟩ := List.mem_map.mp hp
      obtain ⟨v, hv, _, _, hd0⟩ := hvals k hk
      rw [← hpk, hv]
      simpa using hd0
  rw [hsegs]
  rw [if_pos (by simp)]
  have hzip := parseIndex_fold P inds
    (fun k hk => (hvals k hk).imp (fun v hv => ⟨hv.1, hv.2.2.1⟩)) []
  exact hzip

/-- Concrete instance of the C5 round trip: index `a`, delimiter `-`,
record `\x7ba: 42, b: true\x7d` — the key parses back to `\x7ba: 42\x7d`. -/
theorem parseIndex_getIndex_roundtrip_witness :
    DynamicDataStore.parseIndex ⟨⟨[strC "a"], ['-']⟩, []⟩
        (DynamicDataStore.getIndexR ⟨[strC "a"], ['-']⟩
          [(strC "a", .vNum 42), (strC "b", .vBool true)]) =
      Except.ok [(strC "a", .vNum 42)] := by
  have h := parseIndex_getIndex_roundtrip [strC "a"] '-' []
    [(strC "a", .vNum 42), (strC "b", .vBool true)]
    (by simp)
    (by
      intro k hk
      rw [List.mem_singleton.mp hk]
      exact ⟨.vNum 42, rfl, fun hc => Value.noConfusion hc, rfl, by decide⟩)
  exact h
